import Mathlib

/-!
# Widelands path utilities (`src/files.cc`)

A shallow embedding of the path tokenizer, the path canonicalizer (POSIX
branch), the name utilities, the home-directory lookup and the search-path
bootstrap of `files.cc`, of the option loop of `main.cc` and of the location
buttons of `event_move_view_option_menu.cc`, with the properties of the
filesystem specification stated and settled against them.

Conventions of the embedding:

* a `std::string` or C string is the list of its characters (the terminator
  is not part of the list); string lengths are taken to fit the `int` and
  `size_type` variables that hold them;
* `std::string::npos` is `none`;
* a `std::vector<std::string>::iterator` is the position it points at;
  `erase` shifts the later elements one place down and leaves every other
  position as it is, so an iterator kept across an `erase` denotes the same
  position afterwards;
* reading or erasing through a position that is not inside the vector is
  reported as `Fault.outOfBounds`;
* a pointer into the storage of a destroyed local is kept apart from the text
  that storage held (`HomedirPointer`); the text later read through it is an
  input of the embedding, since the source does not determine it;
* loops carry a step budget; exhausting it is reported as `Fault.outOfFuel`
  and is shown never to happen.
-/

namespace Widelands

/-- The characters of a `std::string` (or of a C string, terminator excluded). -/
abbrev Str := List Char

/-- The ways an embedded routine can go wrong. -/
inductive Fault
  | outOfBounds
  | outOfFuel
  deriving DecidableEq, Repr

/-! ## `std::string` primitives -/

/-- Position of the first `c` in `s`, counted from the head of `s`. -/
def firstIndex (c : Char) : Str → Option Nat
  | [] => none
  | x :: xs => if x = c then some 0 else (firstIndex c xs).map (· + 1)

/-- The call `path.find(c, pos)`: the first position at or after `pos` holding `c`. -/
def find (path : Str) (c : Char) (pos : Nat) : Option Nat :=
  (firstIndex c (path.drop pos)).map (pos + ·)

/-- The call `path.substr(pos, len)`. -/
def substr (path : Str) (pos len : Nat) : Str :=
  (path.drop pos).take len

/-- The call `path.substr(pos)`; every call site has `pos ≤ path.size()`. -/
def substrFrom (path : Str) (pos : Nat) : Str :=
  path.drop pos

/-! ## `FS_Tokenize` -/

/-- The `while (pos2 != npos)` loop of `FS_Tokenize` followed by the final
`push_back(path.substr(pos))`. -/
def tokenizeLoop (path : Str) (pathsep : Char) :
    Nat → Nat → Option Nat → List Str → Except Fault (List Str)
  | _, pos, none, components => .ok (components ++ [substrFrom path pos])
  | 0, _, some _, _ => .error .outOfFuel
  | fuel + 1, pos, some pos2, components =>
      tokenizeLoop path pathsep fuel (pos2 + 1) (find path pathsep (pos2 + 1))
        (components ++ [substr path pos (pos2 - pos)])

/-- `FS_Tokenize(path, pathsep)`: split `path` at every `pathsep`, after
skipping one leading `pathsep`. -/
def FS_Tokenize (path : Str) (pathsep : Char) : Except Fault (List Str) :=
  let pos := if find path pathsep 0 = some 0 then 1 else 0
  tokenizeLoop path pathsep path.length pos (find path pathsep pos) []

/-- Modelled from the spec: the default value of the `pathsep` parameter of
`FS_Tokenize` is declared in `filesystem.h`, which is not among the sources;
the specification tokenizes the home and working directories "on the
platform path separator", which is `'/'` in the POSIX branch. -/
def defaultPathsep : Char := '/'

/-! ## `FS_CanonicalizeName` (POSIX branch) -/

/-- Dereference of the iterator at position `i`. -/
def readAt (components : List Str) (i : Nat) : Except Fault Str :=
  match components[i]? with
  | some c => .ok c
  | none => .error .outOfBounds

/-- The call `components.erase(i)` for the iterator at position `i`. -/
def eraseAt (components : List Str) (i : Nat) : Except Fault (List Str) :=
  if i < components.length then .ok (components.eraseIdx i) else .error .outOfBounds

/-- The clean-up loop `for (i = begin(); i != end(); i++)` of
`FS_CanonicalizeName`, started at position `i`. -/
def cleanupLoop : Nat → List Str → Nat → Except Fault (List Str)
  | 0, _, _ => .error .outOfFuel
  | fuel + 1, components, i =>
    if i = components.length then .ok components
    else
      -- if (i->empty()) components.erase(i);
      match readAt components i with
      | .error e => .error e
      | .ok c0 =>
      match (if c0 = [] then eraseAt components i else Except.ok components) with
      | .error e => .error e
      | .ok components1 =>
      -- if (*i==".") components.erase(i);
      match readAt components1 i with
      | .error e => .error e
      | .ok c1 =>
      match (if c1 = ['.'] then eraseAt components1 i else Except.ok components1) with
      | .error e => .error e
      | .ok components2 =>
      -- if (*i=="..") { if (i!=begin()) { i--; erase(i); } erase(i); }
      match readAt components2 i with
      | .error e => .error e
      | .ok c2 =>
        if c2 = ['.', '.'] then
          if i ≠ 0 then
            match eraseAt components2 (i - 1) with
            | .error e => .error e
            | .ok components3 =>
            match eraseAt components3 (i - 1) with
            | .error e => .error e
            | .ok components4 => cleanupLoop fuel components4 (i - 1 + 1)
          else
            match eraseAt components2 i with
            | .error e => .error e
            | .ok components3 => cleanupLoop fuel components3 (i + 1)
        else cleanupLoop fuel components2 (i + 1)

/-- The reassembly at the end of `FS_CanonicalizeName`: `canonpath = "/"`,
then `canonpath += *i + "/"` for every component, then the last character is
cut off by `substr(0, size() - 1)`. -/
def reassemble (components : List Str) : Str :=
  let canonpath := components.foldl (fun acc c => acc ++ (c ++ ['/'])) ['/']
  substr canonpath 0 (canonpath.length - 1)

/-- The tilde expansion of `FS_CanonicalizeName`: when the first component
is `"~"` it is erased, the components of `FS_Tokenize(FS_GetHomedir())` are
inserted at the front, and the path counts as absolute.  `home` is the text
the `std::string` argument of that `FS_Tokenize` call is built from.  It is
read through the pointer `FS_GetHomedir()` returned, which designates the
storage of a local that is destroyed by then (see `HomedirPointer`): the
source does not determine this text, and it is the home directory only when
the dead storage still happens to hold it. -/
def tildeExpansion (components : List Str) (absolute : Bool) (home : Str) :
    Except Fault (List Str × Bool) :=
  match readAt components 0 with
  | .error e => .error e
  | .ok first =>
    if first = ['~'] then
      match eraseAt components 0 with
      | .error e => .error e
      | .ok rest =>
        match FS_Tokenize home defaultPathsep with
        | .error e => .error e
        | .ok homecomponents => .ok (homecomponents ++ rest, true)
    else .ok (components, absolute)

/-- The `if (!absolute)` block of `FS_CanonicalizeName`: the components of
`root`, or of the working directory when `root` is empty, are inserted at the
front. -/
def makeAbsolute (components : List Str) (absolute : Bool) (root cwd : Str) :
    Except Fault (List Str) :=
  if !absolute then
    match FS_Tokenize (if root = [] then cwd else root) defaultPathsep with
    | .error e => .error e
    | .ok cwdcomponents => .ok (cwdcomponents ++ components)
  else .ok components

/-- `FS_CanonicalizeName(path, root)`, POSIX branch.  The parameter `home` is
the text read through the pointer that `FS_GetHomedir()` returned (see
`tildeExpansion`; it is read only when the first component is `"~"`, and it
need not be the value of `HOME`), and the directory written by `getcwd` is
the parameter `cwd`. -/
def FS_CanonicalizeName (path root home cwd : Str) : Except Fault Str :=
  match FS_Tokenize path '/' with
  | .error e => .error e
  | .ok components0 =>
  -- if (path[0]=='/') absolute=true;
  match tildeExpansion components0 (decide (path.head? = some '/')) home with
  | .error e => .error e
  | .ok (components1, absolute) =>
  match makeAbsolute components1 absolute root cwd with
  | .error e => .error e
  | .ok components2 =>
  -- clean up the path
  match cleanupLoop (components2.length + 1) components2 0 with
  | .error e => .error e
  | .ok components3 => .ok (reassemble components3)

/-! ## Reference functions for the tokenizer -/

/-- Splitting at every `c` by recursion on the string. -/
def splitAtSep (c : Char) : Str → List Str
  | [] => [[]]
  | x :: xs =>
    if x = c then [] :: splitAtSep c xs
    else
      match splitAtSep c xs with
      | [] => [[x]]
      | h :: t => (x :: h) :: t

/-- The string without one leading `c`, the part `FS_Tokenize` splits. -/
def dropLeading (c : Char) (p : Str) : Str :=
  if p.head? = some c then p.tail else p

/-! ## `FS_AutoExtension` -/

/-- The scan `for (p = buf; *p; p++)` of `FS_AutoExtension`, over the
characters still to be read, with the current position `p` and the current
value of `dot` (`none` is the null pointer). -/
def scanDot : Str → Nat → Option Nat → Option Nat
  | [], _, dot => dot
  | c :: rest, p, dot =>
    if c = '/' ∨ c = '\\' then scanDot rest (p + 1) none
    else if c = '.' then scanDot rest (p + 1) (some p)
    else scanDot rest (p + 1) dot

/-- `FS_AutoExtension(buf, bufsize, ext)`: the contents of `buf` on return.
After the scan `p - buf` is the length of the contents, and the `memcpy` of
`extlen + 1` bytes puts `ext` and its terminator at their end.  The extension
is taken to be shorter than `2^31` characters, so that `extlen`, an `int`,
holds `strlen(ext)` exactly. -/
def FS_AutoExtension (buf : Str) (bufsize : Int) (ext : Str) : Str :=
  match scanDot buf 0 none with
  | some _ => buf
  | none =>
    let extlen : Int := ext.length
    if (buf.length : Int) + extlen < bufsize then buf ++ ext else buf

/-- The part of a name after its last `'/'` or `'\\'`, or the whole name when
it has neither. -/
def afterLastSep (b : Str) : Str :=
  (b.reverse.takeWhile (fun c => !(decide (c = '/') || decide (c = '\\')))).reverse

/-! ## Canonical paths -/

/-- A CanonicalPath in the words of the specification: `"/"` alone, or `"/"`
followed by one or more segments joined by single `'/'` with no trailing
`'/'`, where no segment is empty, `"."` or `".."`. -/
def isCanonicalPath (c : Str) : Bool :=
  decide (c.head? = some '/') &&
    (c.tail.isEmpty ||
      (splitAtSep '/' c.tail).all
        (fun g => !g.isEmpty && decide (g ≠ ['.']) && decide (g ≠ ['.', '.'])))

/-- Canonicalizing the result of canonicalizing `path`, with the same root
override, home directory and working directory. -/
def canonicalizeTwice (path root home cwd : Str) : Except Fault Str :=
  match FS_CanonicalizeName path root home cwd with
  | .error e => .error e
  | .ok c => FS_CanonicalizeName c root home cwd

/-! ## `FS_StripExtension`, `FS_Filename`, `FS_RelativePath` -/

/-- `FS_StripExtension(fname)`: the contents of `fname` on return.  Its scan
is, statement for statement, the one of `FS_AutoExtension`; `*dot = 0` ends
the string at the position `dot`. -/
def FS_StripExtension (fname : Str) : Str :=
  match scanDot fname 0 none with
  | some dot => fname.take dot
  | none => fname

/-- The loop `while (i >= 0)` of `FS_Filename`; the argument is `i + 1`, so
that `0` stands for `i = -1`. -/
def filenameLoop (buf : Str) : Nat → Str
  | 0 => buf
  | i + 1 =>
    match buf[i]? with
    | some c => if c = '/' ∨ c = '\\' then buf.drop (i + 1) else filenameLoop buf i
    | none => filenameLoop buf i

/-- `FS_Filename(buf)`: the string the returned pointer designates. -/
def FS_Filename (buf : Str) : Str :=
  filenameLoop buf buf.length

/-- The conversion of the `int` argument `buflen` to the `size_t` parameter
of `snprintf` (64 bits wide). -/
def toSizeT (n : Int) : Nat :=
  (n % 2 ^ 64).toNat

/-- The contents of `buf` after `snprintf(buf, size, fmt, ...)`, where `s` is
the formatted text: at most `size - 1` characters of it, and nothing is
written when `size` is zero. -/
def snprintf (buf : Str) (size : Nat) (s : Str) : Str :=
  if size = 0 then buf else s.take (size - 1)

/-- The loop `for (p = basefile; *p; p++)` of `FS_RelativePath`, over the
characters still to be read, with the current offset `p - basefile` and the
current value of `endbase`. -/
def endbaseLoop : Str → Nat → Nat → Nat
  | [], _, endbase => endbase
  | c :: rest, p, endbase =>
    if c = '/' ∨ c = '\\' then endbaseLoop rest (p + 1) (p + 1)
    else endbaseLoop rest (p + 1) endbase

/-- `FS_RelativePath(buf, buflen, basefile, filename)`: the contents of `buf`
on return. -/
def FS_RelativePath (buf : Str) (buflen : Int) (basefile filename : Str) : Str :=
  if filename.head? = some '/' ∨ filename.head? = some '\\' then
    snprintf buf (toSizeT buflen) filename
  else
    let endbase := endbaseLoop basefile 0 0
    if endbase = 0 then snprintf buf (toSizeT buflen) filename
    else snprintf buf (toSizeT buflen) (basefile ++ filename)

/-- The result the documentation of `FS_RelativePath` describes: `filename`
itself when it starts with a separator, and otherwise `basefile` without its
filename part (what follows its last separator), followed by `filename`. -/
def relativePathSpec (basefile filename : Str) : Str :=
  if filename.head? = some '/' ∨ filename.head? = some '\\' then filename
  else basefile.take (basefile.length - (afterLastSep basefile).length) ++ filename

/-! ## `FS_GetHomedir` -/

/-- What `FS_GetHomedir()` returns: `homedir.c_str()` for its local variable
`homedir`, which is destroyed when the function returns.  The pointer
designates dead storage; `stored` is the text the local held at the `return`
statement, and nothing in the source makes a later read through the pointer
give that text back. -/
inductive HomedirPointer
  | dangling (stored : Str)
  deriving DecidableEq, Repr

/-- `FS_GetHomedir()` as a function of what `getenv("HOME")` returns (`none`
is the null pointer), for a build with `HAS_GETENV`.  Assigning the null
pointer to the `std::string` is outside the contract of the assignment, and
the call does not return: the result is `none`.  Otherwise the local holds
the value of `HOME`, or `"."` when that value is empty, and the function
returns a pointer into the local it then destroys. -/
def FS_GetHomedir (env : Option Str) : Option HomedirPointer :=
  match env with
  | none => none
  | some homedir =>
    if homedir.isEmpty then some (.dangling ['.']) else some (.dangling homedir)

/-! ## `setup_searchpaths` (POSIX build without `USE_DATAFILE`) -/

/-- What `readlink("/proc/self/exe", buf, sizeof(buf))` did in `getexename`. -/
inductive SelfExe
  /-- The build is not for Linux: `readlink` is not called and `ret` stays `0`. -/
  | notLinux
  /-- The call returned `-1`. -/
  | failed
  /-- The call stored `target` and returned its length. -/
  | link (target : Str)

/-- `getexename(argv0)`. -/
def getexename (self : SelfExe) (argv0 : Str) : Str :=
  match self with
  | .failed => []
  | .link target => if 0 < target.length then target else argv0
  | .notLinux => argv0

/-- The call `s.rfind(c)`: the position of the last `c` in `s`. -/
def rfind (s : Str) (c : Char) : Option Nat :=
  match firstIndex c s.reverse with
  | some k => some (s.length - 1 - k)
  | none => none

/-- The position `slash` of `setup_searchpaths` after
`if (backslash != npos && (slash == npos || backslash > slash)) slash = backslash;`. -/
def lastSlash (exename : Str) : Option Nat :=
  let slash := rfind exename '/'
  let backslash := rfind exename '\\'
  match backslash, slash with
  | some b, none => some b
  | some b, some s => if b > s then some b else some s
  | none, slash => slash

/-- `setup_searchpaths(argv0)`: the directories handed to
`g_fs->AddFileSystem(FileSystem::CreateFromDirectory(...))`, in the order of
the calls.  `installDatadir` is the constant `INSTALL_DATADIR` of `config.h`
and `home` is what `getenv("HOME")` returns. -/
def setup_searchpaths (installDatadir : Str) (self : SelfExe) (argv0 : Str)
    (home : Option Str) : List Str :=
  let fs : List Str := [installDatadir]
  let fs := fs ++ ["/usr/share/games/widelands".toList]
  let fs := fs ++ [".".toList]
  let exename := getexename self argv0
  let fs :=
    match lastSlash exename with
    | some slash =>
      let exename := exename.take slash
      if exename ≠ ".".toList then fs ++ [exename] else fs
    | none => fs
  match home with
  | some buf => fs ++ [buf ++ "/.widelands".toList]
  | none => fs

/-- The prefix of a name before its last `'/'` or `'\\'`. -/
def dirPart (exename : Str) : Str :=
  exename.take (exename.length - (afterLastSep exename).length - 1)

/-- Whether a name contains a `'/'` or a `'\\'`. -/
def hasSep (exename : Str) : Bool :=
  exename.any (fun c => decide (c = '/') || decide (c = '\\'))

/-! ## The normalization of the specification -/

/-- One step of the left-to-right walk of the specification: an empty or
`"."` component is dropped, `".."` pops the stack when it is non-empty, any
other component is pushed. -/
def specNormStep (stack : List Str) (c : Str) : List Str :=
  if c = [] ∨ c = ['.'] then stack
  else if c = ['.', '.'] then stack.dropLast
  else stack ++ [c]

/-- The normalization `norm` of the specification, by name `specNorm`. -/
def specNorm (components : List Str) : List Str :=
  components.foldl specNormStep []

/-- The clean-up and reassembly that end `FS_CanonicalizeName`, as a function
of the component vector they start from. -/
def finishCanonicalize (components : List Str) : Except Fault Str :=
  match cleanupLoop (components.length + 1) components 0 with
  | .error e => .error e
  | .ok components3 => .ok (reassemble components3)

/-! ## The option loop of `main` (`src/main.cc`) -/

/-- The call `opt.erase(pos, n)`. -/
def eraseRange (opt : Str) (pos n : Nat) : Str :=
  opt.take pos ++ opt.drop (pos + n)

/-- The body of the option loop of `main` for the argument `opt`: whether it
executes `dedicated = true`. -/
def optionSetsDedicated (opt : Str) : Bool :=
  -- At least a size of 11 is needed for --dedicated
  if opt.length < 11 then false
  else
    match find opt '=' 0 with
    | none => false
    | some pos =>
      let opt := eraseRange opt pos (opt.length - pos)
      if opt = "--dedicated".toList then true else false

/-- The loop `for (int i = 1; i < argc && !dedicated; ++i)` of `main`, over
the arguments `argv[i], ..., argv[argc - 1]` still to be visited. -/
def optionLoop : List Str → Bool → Bool
  | [], dedicated => dedicated
  | opt :: rest, dedicated =>
    if dedicated then dedicated
    else if optionSetsDedicated opt then optionLoop rest true
    else optionLoop rest dedicated

/-- The value of `dedicated` after the option loop of `main`; `argc` is the
length of `argv`. -/
def dedicatedFlag (argv : List Str) : Bool :=
  optionLoop (argv.drop 1) false

/-! ## `Event_Move_View_Option_Menu` (`event_move_view_option_menu.cc`) -/

/-- Modelled from the spec: the declarations of `X_Coordinate` and
`Y_Coordinate` are not among the sources; they are the signed 16-bit
coordinate type, and this is the conversion of an `int` to it. -/
def toSint16 (n : Int) : Int :=
  (n + 32768) % 65536 - 32768

/-- The conversion `static_cast<const Uint16>(n)`. -/
def toUint16 (n : Int) : Int :=
  n % 65536

/-- The member `m_location`: a pair of 16-bit coordinates. -/
structure Coords where
  x : Int
  y : Int
  deriving DecidableEq, Repr

/-- The value of `map().extent()`: width and height, of type `Uint16`. -/
structure Extent where
  w : Int
  h : Int
  deriving DecidableEq, Repr

namespace Event_Move_View_Option_Menu

/-- The `switch (i)` of `clicked`, as a function on `m_location`. -/
def clickedSwitch (i : Int) (loc : Coords) : Coords :=
  if i = 3 then { loc with x := toSint16 (loc.x + 100) }
  else if i = 4 then { loc with x := toSint16 (loc.x - min loc.x 100) }
  else if i = 5 then { loc with x := toSint16 (loc.x + 10) }
  else if i = 6 then { loc with x := toSint16 (loc.x - min loc.x 10) }
  else if i = 7 then { loc with x := toSint16 (loc.x + 1) }
  else if i = 8 then { loc with x := toSint16 (loc.x - min loc.x 1) }
  else if i = 9 then { loc with y := toSint16 (loc.y + 100) }
  else if i = 10 then { loc with y := toSint16 (loc.y - min loc.y 100) }
  else if i = 11 then { loc with y := toSint16 (loc.y + 10) }
  else if i = 12 then { loc with y := toSint16 (loc.y - min loc.y 10) }
  else if i = 13 then { loc with y := toSint16 (loc.y + 1) }
  else if i = 14 then { loc with y := toSint16 (loc.y - min loc.y 1) }
  else loc

/-- The two clamps of `update()`, as a function on `m_location`; the text
areas it refreshes are not part of the model. -/
def update (extent : Extent) (loc : Coords) : Coords :=
  let loc : Coords :=
    if extent.w ≤ toUint16 loc.x then { loc with x := toSint16 (extent.w - 1) } else loc
  if extent.h ≤ toUint16 loc.y then { loc with y := toSint16 (extent.h - 1) } else loc

/-- `clicked(i)`: the `switch` followed by `update()`. -/
def clicked (extent : Extent) (i : Int) (loc : Coords) : Coords :=
  update extent (clickedSwitch i loc)

end Event_Move_View_Option_Menu

/-! ## The tokenizer -/

theorem splitAtSep_ne_nil (c : Char) (l : Str) : splitAtSep c l ≠ [] := by
  cases l with
  | nil => simp [splitAtSep]
  | cons x xs =>
    simp only [splitAtSep]
    split
    · simp
    · split <;> simp

theorem splitAtSep_of_firstIndex_none (c : Char) (l : Str)
    (h : firstIndex c l = none) : splitAtSep c l = [l] := by
  induction l with
  | nil => rfl
  | cons x xs ih =>
    simp only [firstIndex] at h
    by_cases hx : x = c
    · simp [hx] at h
    · simp only [hx, if_false, Option.map_eq_none'] at h
      simp [splitAtSep, hx, ih h]

theorem splitAtSep_of_firstIndex_some (c : Char) (l : Str) (k : Nat)
    (h : firstIndex c l = some k) :
    k < l.length ∧ splitAtSep c l = l.take k :: splitAtSep c (l.drop (k + 1)) := by
  induction l generalizing k with
  | nil => simp [firstIndex] at h
  | cons x xs ih =>
    simp only [firstIndex] at h
    by_cases hx : x = c
    · simp only [hx, if_true, Option.some.injEq] at h
      subst h
      simp [splitAtSep, hx]
    · simp only [hx, if_false, Option.map_eq_some'] at h
      obtain ⟨j, hj, rfl⟩ := h
      obtain ⟨hlt, hsplit⟩ := ih j hj
      refine ⟨by simpa using hlt, ?_⟩
      simp [splitAtSep, hx, hsplit]

theorem tokenizeLoop_eq (path : Str) (c : Char) (fuel pos : Nat) (components : List Str)
    (hfuel : path.length - pos ≤ fuel) :
    tokenizeLoop path c fuel pos (find path c pos) components
      = .ok (components ++ splitAtSep c (path.drop pos)) := by
  induction fuel generalizing pos components with
  | zero =>
    cases h : firstIndex c (path.drop pos) with
    | none =>
      simp [find, h, tokenizeLoop, substrFrom, splitAtSep_of_firstIndex_none c _ h]
    | some k =>
      have := (splitAtSep_of_firstIndex_some c _ k h).1
      simp at this
      omega
  | succ f ih =>
    cases h : firstIndex c (path.drop pos) with
    | none =>
      simp [find, h, tokenizeLoop, substrFrom, splitAtSep_of_firstIndex_none c _ h]
    | some k =>
      obtain ⟨hlt, hsplit⟩ := splitAtSep_of_firstIndex_some c _ k h
      simp only [List.length_drop] at hlt
      have hfind : find path c pos = some (pos + k) := by simp [find, h]
      rw [hfind]
      simp only [tokenizeLoop]
      rw [ih (pos + k + 1) _ (by omega), hsplit]
      simp [substr, List.drop_drop, Nat.add_comm, Nat.add_left_comm, Nat.add_assoc]

theorem FS_Tokenize_eq (path : Str) (c : Char) :
    FS_Tokenize path c = .ok (splitAtSep c (dropLeading c path)) := by
  unfold FS_Tokenize
  cases path with
  | nil => simp [find, firstIndex, tokenizeLoop, substrFrom, dropLeading, splitAtSep]
  | cons x xs =>
    by_cases hx : x = c
    · have h0 : find (x :: xs) c 0 = some 0 := by simp [find, firstIndex, hx]
      simp only [h0, if_true]
      rw [tokenizeLoop_eq _ _ _ _ _ (by simp)]
      simp [dropLeading, hx]
    · have h0 : find (x :: xs) c 0 ≠ some 0 := by
        simp [find, firstIndex, hx]
      simp only [h0, if_false]
      rw [tokenizeLoop_eq _ _ _ _ _ (by simp)]
      simp [dropLeading, hx]

theorem intercalate_splitAtSep (c : Char) (l : Str) :
    List.intercalate [c] (splitAtSep c l) = l := by
  induction l with
  | nil => simp [splitAtSep, List.intercalate]
  | cons x xs ih =>
    by_cases hx : x = c
    · simp only [splitAtSep, hx, if_true]
      cases hs : splitAtSep c xs with
      | nil => exact absurd hs (splitAtSep_ne_nil c xs)
      | cons h t =>
        rw [hs] at ih
        simp only [List.intercalate, List.intersperse_cons₂, List.flatten_cons] at ih ⊢
        simp [ih]
    · simp only [splitAtSep, hx, if_false]
      cases hs : splitAtSep c xs with
      | nil => exact absurd hs (splitAtSep_ne_nil c xs)
      | cons h t =>
        rw [hs] at ih
        cases t with
        | nil => simpa [List.intercalate] using ih
        | cons h2 t2 =>
          simp only [List.intercalate, List.intersperse_cons₂, List.flatten_cons] at ih ⊢
          simpa using ih

/-- C7: joining the components of `FS_Tokenize p s` with `s` gives `p` back,
without its single leading `s` when it has one; the tokenizer always returns. -/
theorem FS_Tokenize_join_roundtrip (p : Str) (s : Char) :
    ∃ cs, FS_Tokenize p s = .ok cs ∧
      List.intercalate [s] cs = if p.head? = some s then p.tail else p :=
  ⟨splitAtSep s (dropLeading s p), FS_Tokenize_eq p s, by
    rw [intercalate_splitAtSep]; rfl⟩

theorem not_mem_of_mem_splitAtSep (c : Char) (l : Str) :
    ∀ comp ∈ splitAtSep c l, c ∉ comp := by
  induction l with
  | nil => simp [splitAtSep]
  | cons x xs ih =>
    by_cases hx : x = c
    · simp only [splitAtSep, hx, if_true, List.mem_cons]
      rintro comp (rfl | h)
      · simp
      · exact ih comp h
    · simp only [splitAtSep, hx, if_false]
      cases hs : splitAtSep c xs with
      | nil => exact absurd hs (splitAtSep_ne_nil c xs)
      | cons h t =>
        rw [hs] at ih
        simp only [List.mem_cons]
        rintro comp (rfl | hm)
        · have := ih h (by simp)
          simp only [List.mem_cons, not_or]
          exact ⟨fun e => hx e.symm, this⟩
        · exact ih comp (by simp [hm])

theorem length_splitAtSep (c : Char) (l : Str) :
    (splitAtSep c l).length = 1 + l.count c := by
  induction l with
  | nil => simp [splitAtSep]
  | cons x xs ih =>
    by_cases hx : x = c
    · simp [splitAtSep, hx, ih]; omega
    · simp only [splitAtSep, hx, if_false]
      cases hs : splitAtSep c xs with
      | nil => exact absurd hs (splitAtSep_ne_nil c xs)
      | cons h t =>
        rw [hs] at ih
        rw [List.count_cons_of_ne (fun e => hx e.symm)]
        simpa using ih

theorem splitAtSep_append_sep (c : Char) (a b : Str) :
    splitAtSep c (a ++ c :: b) = splitAtSep c a ++ splitAtSep c b := by
  induction a with
  | nil => simp [splitAtSep]
  | cons x xs ih =>
    by_cases hx : x = c
    · simp [splitAtSep, hx, ih]
    · rw [List.cons_append]
      simp only [splitAtSep, hx, if_false]
      rw [ih]
      cases hs : splitAtSep c xs with
      | nil => exact absurd hs (splitAtSep_ne_nil c xs)
      | cons h t => simp

/-- C8: the components returned by `FS_Tokenize p s` contain no `s`, and there
is one more of them than there are `s` in `p` once a leading `s` is dropped;
so the result is never empty, the empty string gives one empty component, and
two consecutive separators enclose an empty component. -/
theorem FS_Tokenize_shape :
    (∀ (p : Str) (s : Char), ∃ cs, FS_Tokenize p s = .ok cs ∧
        (∀ comp ∈ cs, s ∉ comp) ∧
        cs.length = 1 + (if p.head? = some s then p.tail else p).count s ∧
        cs ≠ []) ∧
    (∀ s : Char, FS_Tokenize [] s = .ok [[]]) ∧
    (∀ (a b : Str) (s : Char), ∃ pre post,
        FS_Tokenize (a ++ s :: s :: b) s = .ok (pre ++ [] :: post) ∧
        pre.length = (if (a ++ [s]).head? = some s then (a ++ [s]).tail else a ++ [s]).count s ∧
        List.intercalate [s] post = b) := by
  refine ⟨fun p s => ⟨_, FS_Tokenize_eq p s, not_mem_of_mem_splitAtSep s _,
      length_splitAtSep s _, splitAtSep_ne_nil s _⟩, fun s => ?_, fun a b s => ?_⟩
  · rw [FS_Tokenize_eq]; rfl
  · cases a with
    | nil =>
      refine ⟨[], splitAtSep s b, ?_, by simp, intercalate_splitAtSep s b⟩
      rw [FS_Tokenize_eq]
      simp [dropLeading, splitAtSep]
    | cons x xs =>
      by_cases hx : x = s
      · refine ⟨splitAtSep s xs, splitAtSep s b, ?_, ?_, intercalate_splitAtSep s b⟩
        · rw [FS_Tokenize_eq]
          simp [dropLeading, hx, splitAtSep_append_sep, splitAtSep]
        · simp [hx, length_splitAtSep]; omega
      · refine ⟨splitAtSep s (x :: xs), splitAtSep s b, ?_, ?_, intercalate_splitAtSep s b⟩
        · rw [FS_Tokenize_eq]
          have : dropLeading s (x :: xs ++ s :: s :: b) = (x :: xs) ++ s :: s :: b := by
            simp [dropLeading, hx]
          rw [this, splitAtSep_append_sep]
          simp [splitAtSep]
        · have hx2 : s ≠ x := fun e => hx e.symm
          simp [hx, length_splitAtSep, List.count_cons_of_ne hx2, List.count_append]; omega

/-! ## The canonicalizer -/

theorem splitAtSep_of_not_mem (c : Char) (l : Str) (h : c ∉ l) : splitAtSep c l = [l] := by
  induction l with
  | nil => rfl
  | cons x xs ih =>
    simp only [List.mem_cons, not_or] at h
    have hx : ¬ x = c := fun e => h.1 e.symm
    simp [splitAtSep, hx, ih h.2]

theorem splitAtSep_intercalate (c : Char) (segs : List Str) (hne : segs ≠ [])
    (hsep : ∀ g ∈ segs, c ∉ g) : splitAtSep c (List.intercalate [c] segs) = segs := by
  induction segs with
  | nil => exact absurd rfl hne
  | cons g t ih =>
    cases t with
    | nil =>
      simpa [List.intercalate] using splitAtSep_of_not_mem c g (hsep g (by simp))
    | cons g2 t2 =>
      have hrest := ih (by simp) (fun x hx => hsep x (List.mem_cons_of_mem _ hx))
      have hcat : List.intercalate [c] (g :: g2 :: t2)
          = g ++ c :: List.intercalate [c] (g2 :: t2) := by
        simp [List.intercalate]
      rw [hcat, splitAtSep_append_sep, hrest, splitAtSep_of_not_mem c g (hsep g (by simp))]
      rfl

theorem foldl_append_sep (segs : List Str) (acc : Str) :
    segs.foldl (fun acc c => acc ++ (c ++ ['/'])) acc
      = acc ++ (segs.map (· ++ ['/'])).flatten := by
  induction segs generalizing acc with
  | nil => simp
  | cons g t ih => simp [ih]

theorem flatten_map_append_sep (segs : List Str) (hne : segs ≠ []) :
    (segs.map (· ++ ['/'])).flatten = List.intercalate ['/'] segs ++ ['/'] := by
  induction segs with
  | nil => exact absurd rfl hne
  | cons g t ih =>
    cases t with
    | nil => simp [List.intercalate]
    | cons g2 t2 =>
      have := ih (by simp)
      simp only [List.map_cons, List.flatten_cons] at this ⊢
      rw [this]
      simp [List.intercalate]

theorem reassemble_of_ne_nil (segs : List Str) (hne : segs ≠ []) :
    reassemble segs = '/' :: List.intercalate ['/'] segs := by
  simp only [reassemble, substr, foldl_append_sep, flatten_map_append_sep segs hne]
  simp [List.take_append_eq_append_take]

theorem readAt_append_cons (pre : List Str) (g : Str) (t : List Str) :
    readAt (pre ++ g :: t) pre.length = .ok g := by
  have h : (pre ++ g :: t)[pre.length]? = some g := by
    rw [List.getElem?_append_right (Nat.le_refl _)]
    simp
  simp [readAt, h]

theorem cleanupLoop_of_clean (post : List Str) :
    ∀ (pre : List Str) (fuel : Nat),
      (∀ g ∈ post, g ≠ [] ∧ g ≠ ['.'] ∧ g ≠ ['.', '.']) → post.length < fuel →
      cleanupLoop fuel (pre ++ post) pre.length = .ok (pre ++ post) := by
  induction post with
  | nil =>
    intro pre fuel _ hfuel
    cases fuel with
    | zero => simp at hfuel
    | succ f => simp [cleanupLoop]
  | cons g t ih =>
    intro pre fuel hclean hfuel
    cases fuel with
    | zero => simp at hfuel
    | succ f =>
      obtain ⟨h1, h2, h3⟩ := hclean g (by simp)
      have hlen : pre.length ≠ (pre ++ g :: t).length := by simp
      have hstep := ih (pre ++ [g]) f (fun x hx => hclean x (List.mem_cons_of_mem _ hx))
        (by simpa using hfuel)
      simp only [List.append_assoc, List.singleton_append, List.length_append,
        List.length_singleton] at hstep
      simp only [cleanupLoop, hlen, if_false, readAt_append_cons, h1, h2, h3]
      exact hstep

theorem tildeExpansion_of_ne_tilde (g : Str) (t : List Str) (absolute : Bool) (home : Str)
    (h : g ≠ ['~']) : tildeExpansion (g :: t) absolute home = .ok (g :: t, absolute) := by
  simp [tildeExpansion, readAt, h]

theorem FS_Tokenize_canonical (segs : List Str) (hne : segs ≠ [])
    (hsep : ∀ g ∈ segs, '/' ∉ g) :
    FS_Tokenize ('/' :: List.intercalate ['/'] segs) '/' = .ok segs := by
  rw [FS_Tokenize_eq]
  simp [dropLeading, splitAtSep_intercalate '/' segs hne hsep]

/-- A path made of clean segments, none of them `"~"` in first place, is
returned unchanged by `FS_CanonicalizeName`. -/
theorem FS_CanonicalizeName_of_segments (segs : List Str) (root home cwd : Str)
    (hne : segs ≠ [])
    (hseg : ∀ g ∈ segs, g ≠ [] ∧ g ≠ ['.'] ∧ g ≠ ['.', '.'] ∧ '/' ∉ g)
    (hfirst : segs.head? ≠ some ['~']) :
    FS_CanonicalizeName ('/' :: List.intercalate ['/'] segs) root home cwd
      = .ok ('/' :: List.intercalate ['/'] segs) := by
  have htok := FS_Tokenize_canonical segs hne (fun g hg => (hseg g hg).2.2.2)
  have hclean := cleanupLoop_of_clean segs [] (segs.length + 1)
    (fun g hg => ⟨(hseg g hg).1, (hseg g hg).2.1, (hseg g hg).2.2.1⟩) (by omega)
  simp only [List.nil_append, List.length_nil] at hclean
  cases segs with
  | nil => exact absurd rfl hne
  | cons g t =>
    have hg : g ≠ ['~'] := by simpa using hfirst
    simp only [FS_CanonicalizeName, htok, List.head?_cons, decide_True,
      tildeExpansion_of_ne_tilde g t true home hg, makeAbsolute, Bool.not_true,
      Bool.false_eq_true, if_false, hclean, reassemble_of_ne_nil (g :: t) hne]

theorem readAt_error (cs : List Str) (i : Nat) (e : Fault)
    (h : readAt cs i = .error e) : e = .outOfBounds := by
  unfold readAt at h
  split at h
  · cases h
  · cases h; rfl

theorem readAt_ok_lt (cs : List Str) (i : Nat) (c : Str)
    (h : readAt cs i = .ok c) : i < cs.length := by
  unfold readAt at h
  split at h
  · rename_i hget
    exact (List.getElem?_eq_some_iff.mp hget).1
  · cases h

theorem eraseAt_error (cs : List Str) (i : Nat) (e : Fault)
    (h : eraseAt cs i = .error e) : e = .outOfBounds := by
  unfold eraseAt at h
  split at h
  · cases h
  · cases h; rfl

theorem eraseAt_ok_length (cs cs1 : List Str) (i : Nat)
    (h : eraseAt cs i = .ok cs1) : cs1.length + 1 = cs.length := by
  unfold eraseAt at h
  split at h
  · rename_i hlt
    cases h
    rw [List.length_eraseIdx]
    simp [hlt]
    omega
  · cases h

theorem cleanupLoop_ne_outOfFuel (fuel : Nat) :
    ∀ (cs : List Str) (i : Nat), cs.length - i + 1 ≤ fuel →
      cleanupLoop fuel cs i ≠ .error .outOfFuel := by
  induction fuel with
  | zero => intro cs i h; omega
  | succ f ih =>
    intro cs i hfuel
    simp only [cleanupLoop]
    split
    · simp
    · rename_i hne
      split
      · rename_i e he
        rw [readAt_error _ _ _ he]; simp
      · rename_i c0 hc0
        have hi := readAt_ok_lt _ _ _ hc0
        split
        · rename_i e he
          split at he
          · rw [eraseAt_error _ _ _ he]; simp
          · cases he
        · rename_i cs1 hcs1
          have hlen1 : cs1.length ≤ cs.length := by
            split at hcs1
            · have := eraseAt_ok_length _ _ _ hcs1; omega
            · cases hcs1; exact Nat.le_refl _
          split
          · rename_i e he
            rw [readAt_error _ _ _ he]; simp
          · rename_i c1 hc1
            split
            · rename_i e he
              split at he
              · rw [eraseAt_error _ _ _ he]; simp
              · cases he
            · rename_i cs2 hcs2
              have hlen2 : cs2.length ≤ cs1.length := by
                split at hcs2
                · have := eraseAt_ok_length _ _ _ hcs2; omega
                · cases hcs2; exact Nat.le_refl _
              split
              · rename_i e he
                rw [readAt_error _ _ _ he]; simp
              · rename_i c2 hc2
                split
                · split
                  · split
                    · rename_i e he
                      rw [eraseAt_error _ _ _ he]; simp
                    · rename_i cs3 hcs3
                      have hlen3 := eraseAt_ok_length _ _ _ hcs3
                      split
                      · rename_i e he
                        rw [eraseAt_error _ _ _ he]; simp
                      · rename_i cs4 hcs4
                        have hlen4 := eraseAt_ok_length _ _ _ hcs4
                        exact ih _ _ (by omega)
                  · split
                    · rename_i e he
                      rw [eraseAt_error _ _ _ he]; simp
                    · rename_i cs3 hcs3
                      have hlen3 := eraseAt_ok_length _ _ _ hcs3
                      exact ih _ _ (by omega)
                · exact ih _ _ (by omega)

/-- The step budgets are never exhausted: `FS_CanonicalizeName` either
returns a string or stops at an access outside the component vector. -/
theorem FS_CanonicalizeName_ne_outOfFuel (path root home cwd : Str) :
    FS_CanonicalizeName path root home cwd ≠ .error .outOfFuel := by
  simp only [FS_CanonicalizeName, FS_Tokenize_eq]
  split
  · rename_i e he
    unfold tildeExpansion at he
    split at he
    · rename_i e1 he1
      cases he
      rw [readAt_error _ _ _ he1]; simp
    · split at he
      · split at he
        · rename_i e1 he1
          cases he
          rw [eraseAt_error _ _ _ he1]; simp
        · simp only [FS_Tokenize_eq] at he
          cases he
      · cases he
  · split
    · rename_i e he
      unfold makeAbsolute at he
      simp only [FS_Tokenize_eq] at he
      split at he <;> cases he
    · split
      · rename_i cs2 _ e he
        intro hcontra
        cases hcontra
        exact cleanupLoop_ne_outOfFuel _ _ _ (by omega) he
      · simp

/-- The fixed-point property in terms of `isCanonicalPath`. -/
theorem FS_CanonicalizeName_of_isCanonicalPath (c root home cwd : Str)
    (hc : isCanonicalPath c = true) (hroot : c ≠ ['/'])
    (htilde : (splitAtSep '/' c.tail).head? ≠ some ['~']) :
    FS_CanonicalizeName c root home cwd = .ok c := by
  cases c with
  | nil => simp [isCanonicalPath] at hc
  | cons x rest =>
    have hrest : rest ≠ [] := by
      intro e
      subst e
      simp [isCanonicalPath] at hc
      exact hroot (by rw [hc])
    simp [isCanonicalPath, hrest] at hc
    obtain ⟨hx, hsegs⟩ := hc
    subst hx
    have h := FS_CanonicalizeName_of_segments (splitAtSep '/' rest) root home cwd
      (splitAtSep_ne_nil _ _)
      (fun g hg => ⟨(hsegs g hg).1.1, (hsegs g hg).1.2, (hsegs g hg).2,
        not_mem_of_mem_splitAtSep '/' rest g hg⟩)
      htilde
    rw [intercalate_splitAtSep] at h
    exact h

/-- C1 (amended): when `FS_CanonicalizeName` returns a CanonicalPath that has
at least one segment and whose first segment is not `"~"`, canonicalizing that
result again returns it unchanged. -/
theorem FS_CanonicalizeName_idempotent_on_canonical (p root home cwd c : Str)
    (hp : FS_CanonicalizeName p root home cwd = .ok c)
    (hc : isCanonicalPath c = true) (hroot : c ≠ ['/'])
    (htilde : (splitAtSep '/' c.tail).head? ≠ some ['~']) :
    canonicalizeTwice p root home cwd = FS_CanonicalizeName p root home cwd := by
  simp only [canonicalizeTwice, hp]
  exact FS_CanonicalizeName_of_isCanonicalPath c root home cwd hc hroot htilde

/-- Witness for C1 (amended): `"/a//b"` canonicalizes to `"/a/b"`, and a second
pass leaves it there. -/
theorem FS_CanonicalizeName_idempotent_on_canonical_witness :
    FS_CanonicalizeName "/a//b".toList [] "/h".toList "/w".toList = .ok "/a/b".toList ∧
      canonicalizeTwice "/a//b".toList [] "/h".toList "/w".toList
        = FS_CanonicalizeName "/a//b".toList [] "/h".toList "/w".toList :=
  ⟨rfl, FS_CanonicalizeName_idempotent_on_canonical "/a//b".toList [] "/h".toList
    "/w".toList "/a/b".toList rfl (by decide) (by decide) (by decide)⟩

/-- C1 (counterexample): with home directory `"/h"`, the path `"/./~"`
canonicalizes to `"/~"`, and `"/~"` canonicalizes to `"/h"`. -/
theorem FS_CanonicalizeName_not_idempotent :
    FS_CanonicalizeName "/./~".toList [] "/h".toList "/".toList = .ok "/~".toList ∧
      canonicalizeTwice "/./~".toList [] "/h".toList "/".toList = .ok "/h".toList ∧
      canonicalizeTwice "/./~".toList [] "/h".toList "/".toList
        ≠ FS_CanonicalizeName "/./~".toList [] "/h".toList "/".toList :=
  ⟨rfl, rfl, by
    have h1 : FS_CanonicalizeName "/./~".toList [] "/h".toList "/".toList
        = .ok "/~".toList := rfl
    have h2 : canonicalizeTwice "/./~".toList [] "/h".toList "/".toList
        = .ok "/h".toList := rfl
    rw [h1, h2]
    intro h
    cases h⟩

/-- C2 (failing input): on `"/.."` the clean-up loop erases the only
component and then steps past the end of the empty vector; on `"/../.."` it
returns `"/.."`. -/
theorem FS_CanonicalizeName_dotdot_at_root :
    ∀ root home cwd : Str,
      FS_CanonicalizeName "/..".toList root home cwd = .error .outOfBounds ∧
      FS_CanonicalizeName "/../..".toList root home cwd = .ok "/..".toList :=
  fun _ _ _ => ⟨rfl, rfl⟩

/-- C3 (failing input): `"/a///b"` canonicalizes to `"/a//b"`, which has an
empty segment and is not a CanonicalPath. -/
theorem FS_CanonicalizeName_keeps_empty_segment :
    ∀ root home cwd : Str,
      FS_CanonicalizeName "/a///b".toList root home cwd = .ok "/a//b".toList ∧
      isCanonicalPath "/a//b".toList = false :=
  fun _ _ _ => ⟨rfl, rfl⟩

/-- C4 (amended): a CanonicalPath with at least one segment whose first
segment is not `"~"` is returned unchanged, whatever the root override, home
directory and working directory are. -/
theorem FS_CanonicalizeName_canonical_fixed (c root home cwd : Str)
    (hc : isCanonicalPath c = true) (hroot : c ≠ ['/'])
    (htilde : (splitAtSep '/' c.tail).head? ≠ some ['~']) :
    FS_CanonicalizeName c root home cwd = .ok c :=
  FS_CanonicalizeName_of_isCanonicalPath c root home cwd hc hroot htilde

/-- Witness for C4 (amended): `"/a/b"` is returned unchanged. -/
theorem FS_CanonicalizeName_canonical_fixed_witness :
    isCanonicalPath "/a/b".toList = true ∧
      FS_CanonicalizeName "/a/b".toList "/r".toList "/h".toList "/w".toList
        = .ok "/a/b".toList :=
  ⟨rfl, FS_CanonicalizeName_canonical_fixed "/a/b".toList "/r".toList "/h".toList
    "/w".toList rfl (by decide) (by decide)⟩

/-- C4 (counterexample): `"/~"` is a CanonicalPath, and with home directory
`"/h"` it canonicalizes to `"/h"`. -/
theorem FS_CanonicalizeName_canonical_tilde_moves :
    isCanonicalPath "/~".toList = true ∧
      FS_CanonicalizeName "/~".toList [] "/h".toList "/".toList = .ok "/h".toList ∧
      FS_CanonicalizeName "/~".toList [] "/h".toList "/".toList ≠ .ok "/~".toList :=
  ⟨rfl, rfl, by
    have h1 : FS_CanonicalizeName "/~".toList [] "/h".toList "/".toList
        = .ok "/h".toList := rfl
    rw [h1]
    intro h
    cases h⟩

/-- C5 (failing input): four separators canonicalize to `"//"`, and on three
separators the clean-up loop reads past the end of the component vector. -/
theorem FS_CanonicalizeName_separators_only :
    ∀ root home cwd : Str,
      FS_CanonicalizeName "////".toList root home cwd = .ok "//".toList ∧
      FS_CanonicalizeName "///".toList root home cwd = .error .outOfBounds :=
  fun _ _ _ => ⟨rfl, rfl⟩

/-- C6 (failing input): on `"/"`, and on `"foo/bar//baz/"` under the root
`"/r"`, the clean-up loop erases the last component and then reads the
position behind the last element. -/
theorem FS_CanonicalizeName_reads_past_end :
    (∀ root home cwd : Str,
      FS_CanonicalizeName "/".toList root home cwd = .error .outOfBounds) ∧
    (∀ home cwd : Str,
      FS_CanonicalizeName "foo/bar//baz/".toList "/r".toList home cwd
        = .error .outOfBounds) :=
  ⟨fun _ _ _ => rfl, fun _ _ => rfl⟩

/-! ## The extension helper -/

theorem scanDot_append (xs ys : Str) (p : Nat) (dot : Option Nat) :
    scanDot (xs ++ ys) p dot = scanDot ys (p + xs.length) (scanDot xs p dot) := by
  induction xs generalizing p dot with
  | nil => simp [scanDot]
  | cons x t ih =>
    rw [List.cons_append]
    simp only [scanDot, List.length_cons]
    split
    · rw [ih]; congr 1; omega
    · split
      · rw [ih]; congr 1; omega
      · rw [ih]; congr 1; omega

theorem scanDot_of_no_sep (seg : Str) (p : Nat) (dot : Option Nat)
    (hseg : ∀ c ∈ seg, ¬ (c = '/' ∨ c = '\\')) :
    scanDot seg p dot = none ↔ dot = none ∧ '.' ∉ seg := by
  induction seg generalizing p dot with
  | nil => simp [scanDot]
  | cons x t ih =>
    have hx := hseg x (by simp)
    have ht : ∀ c ∈ t, ¬ (c = '/' ∨ c = '\\') := fun c hc => hseg c (List.mem_cons_of_mem _ hc)
    simp only [scanDot, hx, if_false]
    by_cases hd : x = '.'
    · simp [hd, ih _ _ ht]
    · have hd2 : ¬ '.' = x := fun e => hd e.symm
      simp [hd, hd2, ih _ _ ht]

theorem scanDot_concat_sep (q : Str) (s : Char) (p : Nat) (dot : Option Nat)
    (hs : s = '/' ∨ s = '\\') : scanDot (q ++ [s]) p dot = none := by
  rw [scanDot_append]
  simp [scanDot, hs]

theorem afterLastSep_no_sep (b : Str) : ∀ c ∈ afterLastSep b, ¬ (c = '/' ∨ c = '\\') := by
  intro c hc
  simp only [afterLastSep, List.mem_reverse] at hc
  have := List.mem_takeWhile_imp hc
  simpa using this

theorem afterLastSep_decomp (b : Str) :
    ∃ pre, b = pre ++ afterLastSep b ∧
      (pre = [] ∨ ∃ q s, pre = q ++ [s] ∧ (s = '/' ∨ s = '\\')) := by
  refine ⟨(b.reverse.dropWhile (fun c => !(decide (c = '/') || decide (c = '\\')))).reverse,
    ?_, ?_⟩
  · rw [afterLastSep, ← List.reverse_append, List.takeWhile_append_dropWhile,
      List.reverse_reverse]
  · cases h : b.reverse.dropWhile (fun c => !(decide (c = '/') || decide (c = '\\'))) with
    | nil => left; rfl
    | cons s t =>
      right
      refine ⟨t.reverse, s, by simp, ?_⟩
      have := List.head?_dropWhile_not (fun c => !(decide (c = '/') || decide (c = '\\')))
        b.reverse
      rw [h] at this
      simp only [List.head?_cons, Bool.not_eq_false', Bool.not_eq_true', Bool.or_eq_true,
        decide_eq_true_eq, Bool.not_eq_eq_eq_not, Bool.not_true, Bool.or_eq_false_iff,
        decide_eq_false_iff_not] at this
      by_cases h1 : s = '/'
      · exact Or.inl h1
      · by_cases h2 : s = '\\'
        · exact Or.inr h2
        · simp [h1, h2] at this

theorem scanDot_eq_none_iff (b : Str) :
    scanDot b 0 none = none ↔ '.' ∉ afterLastSep b := by
  obtain ⟨pre, hb, hpre⟩ := afterLastSep_decomp b
  have hscan : scanDot b 0 none
      = scanDot (afterLastSep b) (0 + pre.length) (scanDot pre 0 none) := by
    conv_lhs => rw [hb]
    exact scanDot_append _ _ _ _
  have hpre0 : scanDot pre 0 none = none := by
    rcases hpre with rfl | ⟨q, s, rfl, hs⟩
    · rfl
    · exact scanDot_concat_sep q s 0 none hs
  rw [hscan, hpre0, scanDot_of_no_sep _ _ _ (afterLastSep_no_sep b)]
  simp

/-- C9: a name whose part after the last `'/'` or `'\\'` contains a `'.'` is
returned unchanged by `FS_AutoExtension`, for every extension and buffer size. -/
theorem FS_AutoExtension_of_dot (b : Str) (bufsize : Int) (ext : Str)
    (hdot : '.' ∈ afterLastSep b) : FS_AutoExtension b bufsize ext = b := by
  have h : scanDot b 0 none ≠ none := fun e => (scanDot_eq_none_iff b).mp e hdot
  unfold FS_AutoExtension
  split
  · rfl
  · rename_i hnone; exact absurd hnone h

/-- Witness for C9: `"a/b.txt"` with extension `".cfg"` stays `"a/b.txt"`. -/
theorem FS_AutoExtension_of_dot_witness :
    '.' ∈ afterLastSep "a/b.txt".toList ∧
      FS_AutoExtension "a/b.txt".toList 64 ".cfg".toList = "a/b.txt".toList :=
  ⟨by decide, FS_AutoExtension_of_dot "a/b.txt".toList 64 ".cfg".toList (by decide)⟩

/-- C10: a name whose part after the last `'/'` or `'\\'` contains no `'.'`
gets `ext` appended when `strlen(b) + strlen(ext) < bufsize`, and is returned
unchanged otherwise. -/
theorem FS_AutoExtension_of_no_dot (b : Str) (bufsize : Int) (ext : Str)
    (hdot : '.' ∉ afterLastSep b) :
    FS_AutoExtension b bufsize ext
      = if (b.length : Int) + (ext.length : Int) < bufsize then b ++ ext else b := by
  have h : scanDot b 0 none = none := (scanDot_eq_none_iff b).mpr hdot
  simp [FS_AutoExtension, h]

/-- Witness for C10: `"a/b"` with extension `".cfg"` and room for 64 bytes
becomes `"a/b.cfg"`. -/
theorem FS_AutoExtension_of_no_dot_witness :
    '.' ∉ afterLastSep "a/b".toList ∧
      FS_AutoExtension "a/b".toList 64 ".cfg".toList = "a/b.cfg".toList :=
  ⟨by decide, by
    have h := FS_AutoExtension_of_no_dot "a/b".toList 64 ".cfg".toList (by decide)
    rw [h]; decide⟩

/-! ## The name utilities -/

theorem scanDot_of_plain (seg : Str) (p : Nat) (dot : Option Nat)
    (hseg : ∀ c ∈ seg, ¬ (c = '/' ∨ c = '\\')) (hdot : '.' ∉ seg) :
    scanDot seg p dot = dot := by
  induction seg generalizing p with
  | nil => rfl
  | cons x t ih =>
    have hx := hseg x (by simp)
    have hd : ¬ x = '.' := fun e => hdot (by simp [e])
    simp only [scanDot, hx, hd, if_false]
    exact ih _ (fun c hc => hseg c (List.mem_cons_of_mem _ hc))
      (fun h => hdot (List.mem_cons_of_mem _ h))

theorem FS_StripExtension_append_dot (a b : Str)
    (hseg : ∀ c ∈ b, ¬ (c = '/' ∨ c = '\\')) (hdot : '.' ∉ b) :
    FS_StripExtension (a ++ '.' :: b) = a := by
  have h : scanDot (a ++ '.' :: b) 0 none = some a.length := by
    rw [scanDot_append]
    have hne : ¬ (('.' : Char) = '/' ∨ ('.' : Char) = '\\') := by decide
    simp only [scanDot, hne, if_false, if_true]
    rw [scanDot_of_plain b _ _ hseg hdot]
    simp
  simp [FS_StripExtension, h]

/-- C11: when the part of `f` after its last `'/'` or `'\\'` contains a `'.'`,
`FS_StripExtension` cuts `f` immediately before the last `'.'` of that part;
otherwise, also when only directory parts have dots, it returns `f`
unchanged; `"a/b.c.txt"` becomes `"a/b.c"`. -/
theorem FS_StripExtension_last_suffix :
    (∀ f : Str, '.' ∈ afterLastSep f →
      ∃ a b pre, f = a ++ '.' :: b ∧ afterLastSep f = pre ++ '.' :: b ∧ '.' ∉ b ∧
        FS_StripExtension f = a) ∧
    (∀ f : Str, '.' ∉ afterLastSep f → FS_StripExtension f = f) ∧
    FS_StripExtension "a/b.c.txt".toList = "a/b.c".toList ∧
    FS_StripExtension "a.d/b".toList = "a.d/b".toList := by
  refine ⟨fun f hf => ?_, fun f hf => ?_, by decide, by decide⟩
  · obtain ⟨P, hP, _⟩ := afterLastSep_decomp f
    have hrev : '.' ∈ (afterLastSep f).reverse := by simpa using hf
    obtain ⟨s, t, hst, hs⟩ := List.eq_append_cons_of_mem hrev
    have hseg : afterLastSep f = t.reverse ++ '.' :: s.reverse := by
      have := congrArg List.reverse hst
      simpa using this
    have hb : ∀ c ∈ s.reverse, ¬ (c = '/' ∨ c = '\\') := fun c hc =>
      afterLastSep_no_sep f c (by rw [hseg]; simp [hc])
    have hbd : '.' ∉ s.reverse := by simpa using hs
    have hf2 : f = (P ++ t.reverse) ++ '.' :: s.reverse := by
      conv_lhs => rw [hP, hseg]
      simp
    refine ⟨P ++ t.reverse, s.reverse, t.reverse, hf2, hseg, hbd, ?_⟩
    conv_lhs => rw [hf2]
    exact FS_StripExtension_append_dot _ _ hb hbd
  · have h : scanDot f 0 none = none := (scanDot_eq_none_iff f).mpr hf
    simp [FS_StripExtension, h]

theorem afterLastSep_append_sep (q : Str) (s : Char) (seg : Str)
    (hs : s = '/' ∨ s = '\\') (hseg : ∀ c ∈ seg, ¬ (c = '/' ∨ c = '\\')) :
    afterLastSep (q ++ s :: seg) = seg := by
  unfold afterLastSep
  have hrev : (q ++ s :: seg).reverse = seg.reverse ++ s :: q.reverse := by simp
  rw [hrev, List.takeWhile_append_of_pos, List.takeWhile_cons_of_neg]
  · simp
  · rcases hs with h | h <;> simp [h]
  · intro a ha
    have := hseg a (by simpa using ha)
    simpa [not_or] using this

theorem afterLastSep_of_no_sep (seg : Str) (hseg : ∀ c ∈ seg, ¬ (c = '/' ∨ c = '\\')) :
    afterLastSep seg = seg := by
  unfold afterLastSep
  rw [List.takeWhile_eq_self_iff.mpr, List.reverse_reverse]
  intro a ha
  have := hseg a (by simpa using ha)
  simpa [not_or] using this

theorem filenameLoop_eq (buf : Str) (n : Nat) (hn : n ≤ buf.length)
    (hrest : ∀ c ∈ buf.drop n, ¬ (c = '/' ∨ c = '\\')) :
    filenameLoop buf n = afterLastSep buf := by
  induction n with
  | zero =>
    simp only [filenameLoop]
    exact (afterLastSep_of_no_sep buf (by simpa using hrest)).symm
  | succ i ih =>
    have hi : i < buf.length := hn
    have hget : buf[i]? = some buf[i] := List.getElem?_eq_getElem hi
    have hdrop : buf.drop i = buf[i] :: buf.drop (i + 1) := List.drop_eq_getElem_cons hi
    simp only [filenameLoop, hget]
    by_cases hc : buf[i] = '/' ∨ buf[i] = '\\'
    · simp only [hc, if_true]
      have hsplit : buf = buf.take i ++ buf[i] :: buf.drop (i + 1) := by
        rw [← hdrop, List.take_append_drop]
      conv_rhs => rw [hsplit]
      exact (afterLastSep_append_sep _ _ _ hc hrest).symm
    · simp only [hc, if_false]
      apply ih (Nat.le_of_lt hi)
      intro c hmem
      rw [hdrop, List.mem_cons] at hmem
      rcases hmem with rfl | hmem
      · exact hc
      · exact hrest c hmem

theorem FS_Filename_eq (buf : Str) : FS_Filename buf = afterLastSep buf :=
  filenameLoop_eq buf buf.length (Nat.le_refl _) (by simp)

/-- C12: `FS_Filename s` is the longest suffix of `s` without `'/'` and
`'\\'` (the text after the last separator, or all of `s`), and applying it
twice is the same as applying it once. -/
theorem FS_Filename_basename :
    (∀ s : Str, FS_Filename s <:+ s ∧ (∀ c ∈ FS_Filename s, c ≠ '/' ∧ c ≠ '\\') ∧
      (∀ t : Str, t <:+ s → (∀ c ∈ t, c ≠ '/' ∧ c ≠ '\\') → t <:+ FS_Filename s) ∧
      FS_Filename s = afterLastSep s ∧
      FS_Filename (FS_Filename s) = FS_Filename s) ∧
    FS_Filename "a/b/c.txt".toList = "c.txt".toList ∧
    FS_Filename "c.txt".toList = "c.txt".toList := by
  refine ⟨fun s => ?_, by decide, by decide⟩
  obtain ⟨pre, hpre, hcases⟩ := afterLastSep_decomp s
  have hsuf : afterLastSep s <:+ s := ⟨pre, hpre.symm⟩
  have hno := afterLastSep_no_sep s
  rw [FS_Filename_eq, FS_Filename_eq, afterLastSep_of_no_sep _ hno]
  refine ⟨hsuf, fun c hc => not_or.mp (hno c hc), fun t ht hclean => ?_, rfl, rfl⟩
  by_cases hlen : t.length ≤ (afterLastSep s).length
  · exact List.suffix_of_suffix_length_le ht hsuf hlen
  · exfalso
    rcases hcases with rfl | ⟨q, sp, rfl, hsp⟩
    · have := ht.length_le
      have h2 := hsuf.length_le
      rw [hpre] at this
      simp at this
      omega
    · have hs2 : (sp :: afterLastSep s) <:+ s := by
        refine ⟨q, ?_⟩
        have h := hpre.symm
        simp only [List.append_assoc, List.singleton_append] at h
        exact h
      have hsub : (sp :: afterLastSep s) <:+ t :=
        List.suffix_of_suffix_length_le hs2 ht (by simp; omega)
      have hmem : sp ∈ t := hsub.subset (by simp)
      have := hclean sp hmem
      rcases hsp with h | h
      · exact this.1 h
      · exact this.2 h

/-- C13 (failing input): for the base file `"dir/base.txt"` and the file name
`"f"` the buffer receives `"dir/base.txtf"`, while the documented result,
the base file without its filename part followed by the file name, is
`"dir/f"`. -/
theorem FS_RelativePath_keeps_base_filename :
    ∀ buf : Str,
      FS_RelativePath buf 64 "dir/base.txt".toList "f".toList = "dir/base.txtf".toList ∧
      relativePathSpec "dir/base.txt".toList "f".toList = "dir/f".toList := by
  intro buf
  exact ⟨rfl, rfl⟩

/-- C20: when `strlen(b) < bufsize`, the result of `FS_AutoExtension` is
shorter than `bufsize` too and starts with `b`. -/
theorem FS_AutoExtension_fits (b : Str) (bufsize : Int) (ext : Str)
    (hlen : (b.length : Int) < bufsize) :
    ((FS_AutoExtension b bufsize ext).length : Int) < bufsize ∧
      b <+: FS_AutoExtension b bufsize ext := by
  unfold FS_AutoExtension
  split
  · exact ⟨hlen, List.prefix_refl _⟩
  · simp only
    split
    · rename_i h
      refine ⟨?_, List.prefix_append _ _⟩
      rw [List.length_append]
      push_cast
      exact h
    · exact ⟨hlen, List.prefix_refl _⟩

/-- Witness for C20: `"a/b"` with extension `".cfg"` in a buffer of 6 bytes
stays `"a/b"`, shorter than 6. -/
theorem FS_AutoExtension_fits_witness :
    ((FS_AutoExtension "a/b".toList 6 ".cfg".toList).length : Int) < 6 ∧
      "a/b".toList <+: FS_AutoExtension "a/b".toList 6 ".cfg".toList :=
  FS_AutoExtension_fits "a/b".toList 6 ".cfg".toList (by decide)

/-! ## The search-path bootstrap -/

theorem firstIndex_sep_cases (r : Str) :
    (firstIndex '/' r = none ∧ firstIndex '\\' r = none ∧
      (r.takeWhile (fun c => !(decide (c = '/') || decide (c = '\\')))).length = r.length) ∨
    (firstIndex '/' r
        = some (r.takeWhile (fun c => !(decide (c = '/') || decide (c = '\\')))).length ∧
      (firstIndex '\\' r = none ∨ ∃ k, firstIndex '\\' r = some k ∧
        (r.takeWhile (fun c => !(decide (c = '/') || decide (c = '\\')))).length < k)) ∨
    (firstIndex '\\' r
        = some (r.takeWhile (fun c => !(decide (c = '/') || decide (c = '\\')))).length ∧
      (firstIndex '/' r = none ∨ ∃ k, firstIndex '/' r = some k ∧
        (r.takeWhile (fun c => !(decide (c = '/') || decide (c = '\\')))).length < k)) := by
  induction r with
  | nil => left; simp [firstIndex]
  | cons x xs ih =>
    by_cases h1 : x = '/'
    · right; left
      subst h1
      have hne : ¬ ('/' : Char) = '\\' := by decide
      refine ⟨by simp [firstIndex], ?_⟩
      simp only [firstIndex, hne, if_false]
      cases h : firstIndex '\\' xs with
      | none => left; simp
      | some k => right; exact ⟨k + 1, by simp, by simp⟩
    · by_cases h2 : x = '\\'
      · right; right
        subst h2
        have hne : ¬ ('\\' : Char) = '/' := by decide
        refine ⟨by simp [firstIndex], ?_⟩
        simp only [firstIndex, hne, if_false]
        cases h : firstIndex '/' xs with
        | none => left; simp
        | some k => right; exact ⟨k + 1, by simp, by simp⟩
      · have htw : (x :: xs).takeWhile (fun c => !(decide (c = '/') || decide (c = '\\')))
            = x :: xs.takeWhile (fun c => !(decide (c = '/') || decide (c = '\\'))) := by
          simp [List.takeWhile, h1, h2]
        rw [htw]
        simp only [firstIndex, h1, h2, if_false, List.length_cons]
        rcases ih with ⟨ha, hb, hc⟩ | ⟨ha, hb⟩ | ⟨ha, hb⟩
        · left; exact ⟨by simp [ha], by simp [hb], by omega⟩
        · right; left
          refine ⟨by simp [ha], ?_⟩
          rcases hb with hb | ⟨k, hk, hlt⟩
          · left; simp [hb]
          · right; exact ⟨k + 1, by simp [hk], by omega⟩
        · right; right
          refine ⟨by simp [ha], ?_⟩
          rcases hb with hb | ⟨k, hk, hlt⟩
          · left; simp [hb]
          · right; exact ⟨k + 1, by simp [hk], by omega⟩

theorem firstIndex_lt_length (c : Char) (r : Str) (k : Nat) (h : firstIndex c r = some k) :
    k < r.length :=
  (splitAtSep_of_firstIndex_some c r k h).1

theorem length_afterLastSep (e : Str) :
    (afterLastSep e).length
      = (e.reverse.takeWhile (fun c => !(decide (c = '/') || decide (c = '\\')))).length := by
  simp [afterLastSep]

theorem hasSep_iff (e : Str) : hasSep e = true ↔ (afterLastSep e).length < e.length := by
  have hle : (afterLastSep e).length ≤ e.length := by
    obtain ⟨pre, hpre, _⟩ := afterLastSep_decomp e
    have := congrArg List.length hpre
    simp at this
    omega
  constructor
  · intro h
    by_contra hlt
    have heq : (afterLastSep e).length = e.length := by omega
    obtain ⟨pre, hpre, _⟩ := afterLastSep_decomp e
    have hl := congrArg List.length hpre
    simp only [List.length_append] at hl
    have hnil : pre = [] := List.length_eq_zero.mp (by omega)
    subst hnil
    simp only [List.nil_append] at hpre
    have hno := afterLastSep_no_sep e
    rw [← hpre] at hno
    simp only [hasSep, List.any_eq_true, Bool.or_eq_true, decide_eq_true_eq] at h
    obtain ⟨c, hc, hsep⟩ := h
    exact hno c hc hsep
  · intro h
    by_contra hno
    have hall : ∀ c ∈ e, ¬ (c = '/' ∨ c = '\\') := by
      intro c hc hsep
      apply hno
      simp only [hasSep, List.any_eq_true, Bool.or_eq_true, decide_eq_true_eq]
      exact ⟨c, hc, hsep⟩
    rw [afterLastSep_of_no_sep e hall] at h
    omega

theorem lastSlash_eq (e : Str) :
    lastSlash e
      = if hasSep e = true then some (e.length - 1 - (afterLastSep e).length) else none := by
  have hcases := firstIndex_sep_cases e.reverse
  rw [← length_afterLastSep] at hcases
  have hiff := hasSep_iff e
  simp only [lastSlash, rfind]
  rcases hcases with ⟨ha, hb, hc⟩ | ⟨ha, hb⟩ | ⟨ha, hb⟩
  · have hfalse : ¬ hasSep e = true := by
      rw [hiff]; simp at hc; omega
    simp [ha, hb, hfalse]
  · have hlt := firstIndex_lt_length _ _ _ ha
    simp only [List.length_reverse] at hlt
    have htrue : hasSep e = true := hiff.mpr hlt
    rcases hb with hb | ⟨k, hk, hkl⟩
    · simp [ha, hb, htrue]
    · have hk2 := firstIndex_lt_length _ _ _ hk
      simp only [List.length_reverse] at hk2
      have hng : ¬ (e.length - 1 - k > e.length - 1 - (afterLastSep e).length) := by omega
      simp [ha, hk, htrue, hng]
  · have hlt := firstIndex_lt_length _ _ _ ha
    simp only [List.length_reverse] at hlt
    have htrue : hasSep e = true := hiff.mpr hlt
    rcases hb with hb | ⟨k, hk, hkl⟩
    · simp [ha, hb, htrue]
    · have hk2 := firstIndex_lt_length _ _ _ hk
      simp only [List.length_reverse] at hk2
      have hg : e.length - 1 - (afterLastSep e).length > e.length - 1 - k := by omega
      simp [ha, hk, htrue, hg]

theorem setup_searchpaths_eq (installDatadir : Str) (self : SelfExe) (argv0 : Str)
    (home : Option Str) :
    setup_searchpaths installDatadir self argv0 home
      = [installDatadir, "/usr/share/games/widelands".toList, ".".toList]
        ++ (if hasSep (getexename self argv0) = true
              ∧ dirPart (getexename self argv0) ≠ ".".toList
            then [dirPart (getexename self argv0)] else [])
        ++ (match home with
            | some h => [h ++ "/.widelands".toList]
            | none => []) := by
  have hdir : (getexename self argv0).take
      ((getexename self argv0).length - 1 - (afterLastSep (getexename self argv0)).length)
      = dirPart (getexename self argv0) := by
    unfold dirPart
    congr 1
    omega
  simp only [setup_searchpaths, lastSlash_eq]
  by_cases hs : hasSep (getexename self argv0) = true
  · simp only [hs, if_true, true_and, hdir]
    by_cases hd : dirPart (getexename self argv0) = ['.']
    · cases home <;> simp [hd]
    · cases home <;> simp [hd]
  · cases home <;> simp [hs]

/-- C14: with `HOME` set to `h`, `setup_searchpaths` registers, in this order,
`INSTALL_DATADIR`, `"/usr/share/games/widelands"`, `"."`, then the directory
part of the executable name when that name contains a `'/'` or `'\\'` and the
directory part is not `"."`, and last `h` followed by `"/.widelands"`. -/
theorem setup_searchpaths_order (installDatadir : Str) (self : SelfExe) (argv0 h : Str) :
    setup_searchpaths installDatadir self argv0 (some h)
      = [installDatadir, "/usr/share/games/widelands".toList, ".".toList]
        ++ (if hasSep (getexename self argv0) = true
              ∧ dirPart (getexename self argv0) ≠ ".".toList
            then [dirPart (getexename self argv0)] else [])
        ++ [h ++ "/.widelands".toList] :=
  setup_searchpaths_eq installDatadir self argv0 (some h)

/-- C15 (amended): whatever the executable name and `HOME` are, the working
directory `"."` is registered; when `HOME` is set to `h` the user directory
`h/.widelands` is registered as well, as the last entry; and when `HOME` is
absent nothing is registered for the user: the list is exactly
`INSTALL_DATADIR`, `"/usr/share/games/widelands"`, `"."` and, when it
applies, the directory of the executable. -/
theorem setup_searchpaths_minimum (installDatadir : Str) (self : SelfExe) (argv0 : Str) :
    (∀ home : Option Str, ".".toList ∈ setup_searchpaths installDatadir self argv0 home) ∧
    (∀ h : Str,
      h ++ "/.widelands".toList ∈ setup_searchpaths installDatadir self argv0 (some h)) ∧
    (∀ h : Str, setup_searchpaths installDatadir self argv0 (some h)
      = setup_searchpaths installDatadir self argv0 none ++ [h ++ "/.widelands".toList]) ∧
    setup_searchpaths installDatadir self argv0 none
      = [installDatadir, "/usr/share/games/widelands".toList, ".".toList]
        ++ (if hasSep (getexename self argv0) = true
              ∧ dirPart (getexename self argv0) ≠ ".".toList
            then [dirPart (getexename self argv0)] else []) := by
  refine ⟨fun home => ?_, fun h => ?_, fun h => ?_, ?_⟩
  · rw [setup_searchpaths_eq]
    simp
  · rw [setup_searchpaths_eq]
    simp
  · rw [setup_searchpaths_eq, setup_searchpaths_eq]
    simp
  · rw [setup_searchpaths_eq]
    simp

/-- C15 (counterexample): with `HOME` unset and the program started as
`"widelands"`, three directories are registered and none of them is a user
directory, a name ending in `"/.widelands"`. -/
theorem setup_searchpaths_without_home :
    setup_searchpaths "/usr/local/share/widelands".toList SelfExe.notLinux
        "widelands".toList none
      = ["/usr/local/share/widelands".toList, "/usr/share/games/widelands".toList,
          ".".toList] ∧
    ∀ h : Str, h ++ "/.widelands".toList ∉
      setup_searchpaths "/usr/local/share/widelands".toList SelfExe.notLinux
        "widelands".toList none := by
  have heval : setup_searchpaths "/usr/local/share/widelands".toList SelfExe.notLinux
        "widelands".toList none
      = ["/usr/local/share/widelands".toList, "/usr/share/games/widelands".toList,
          ".".toList] := by decide
  refine ⟨heval, fun h hmem => ?_⟩
  rw [heval] at hmem
  have hsuf : ∀ e : Str, h ++ "/.widelands".toList = e → "/.widelands".toList <:+ e :=
    fun e he => ⟨h, he⟩
  simp only [List.mem_cons, List.mem_singleton, List.not_mem_nil, or_false] at hmem
  rcases hmem with h1 | h1 | h1
  · exact absurd (hsuf _ h1) (by decide)
  · exact absurd (hsuf _ h1) (by decide)
  · exact absurd (hsuf _ h1) (by decide)

/-! ## Home directory, root override and tilde expansion -/

/-- C16 (failing input): with `HOME` unset `FS_GetHomedir` hands the null
pointer to the `std::string` and does not return a directory; with `HOME`
set its local holds the value, or `"."` when the value is empty, and the
pointer it returns designates that local after its destruction. -/
theorem FS_GetHomedir_unset :
    FS_GetHomedir none = none ∧
    (∀ h : Str, FS_GetHomedir (some h)
      = some (HomedirPointer.dangling (if h = [] then ['.'] else h))) := by
  refine ⟨rfl, fun h => ?_⟩
  cases h <;> simp [FS_GetHomedir]

/-- C17 (failing input): the components of `"/a/b/../../c"` normalize to
`["c"]`, so the specified result is `"/c"`, while `FS_CanonicalizeName`
returns `"/a/../c"`. -/
theorem FS_CanonicalizeName_differs_from_norm :
    ∀ root home cwd : Str,
      FS_Tokenize "/a/b/../../c".toList '/'
        = .ok ["a".toList, "b".toList, "..".toList, "..".toList, "c".toList] ∧
      '/' :: List.intercalate ['/']
          (specNorm ["a".toList, "b".toList, "..".toList, "..".toList, "c".toList])
        = "/c".toList ∧
      FS_CanonicalizeName "/a/b/../../c".toList root home cwd = .ok "/a/../c".toList :=
  fun _ _ _ => ⟨rfl, rfl, rfl⟩

theorem FS_CanonicalizeName_absolute (path root home cwd : Str)
    (hp : path.head? = some '/')
    (ht : (splitAtSep '/' path.tail).head? ≠ some ['~']) :
    FS_CanonicalizeName path root home cwd = finishCanonicalize (splitAtSep '/' path.tail) := by
  have hdrop : dropLeading '/' path = path.tail := by simp [dropLeading, hp]
  cases hs : splitAtSep '/' path.tail with
  | nil => exact absurd hs (splitAtSep_ne_nil _ _)
  | cons g t =>
    have hg : g ≠ ['~'] := by rw [hs] at ht; simpa using ht
    simp only [FS_CanonicalizeName, FS_Tokenize_eq, hdrop, hs, hp, decide_True,
      tildeExpansion_of_ne_tilde g t true home hg, makeAbsolute, Bool.not_true,
      Bool.false_eq_true, if_false, finishCanonicalize]

theorem FS_CanonicalizeName_relative (path root home cwd : Str)
    (hp : path.head? ≠ some '/')
    (ht : (splitAtSep '/' path).head? ≠ some ['~']) :
    FS_CanonicalizeName path root home cwd
      = finishCanonicalize
          (splitAtSep '/' (dropLeading '/' (if root = [] then cwd else root))
            ++ splitAtSep '/' path) := by
  have hdrop : dropLeading '/' path = path := by simp [dropLeading, hp]
  cases hs : splitAtSep '/' path with
  | nil => exact absurd hs (splitAtSep_ne_nil _ _)
  | cons g t =>
    have hg : g ≠ ['~'] := by rw [hs] at ht; simpa using ht
    simp only [FS_CanonicalizeName, FS_Tokenize_eq, hdrop, hs, hp, decide_False,
      tildeExpansion_of_ne_tilde g t false home hg, makeAbsolute, Bool.not_false,
      if_true, defaultPathsep, finishCanonicalize]

theorem FS_CanonicalizeName_of_tilde (path root home cwd : Str) (t : List Str)
    (hs : splitAtSep '/' (dropLeading '/' path) = ['~'] :: t) :
    FS_CanonicalizeName path root home cwd
      = finishCanonicalize (splitAtSep '/' (dropLeading '/' home) ++ t) := by
  have htilde : ∀ absolute : Bool, tildeExpansion (['~'] :: t) absolute home
      = .ok (splitAtSep '/' (dropLeading '/' home) ++ t, true) := by
    intro absolute
    simp [tildeExpansion, readAt, eraseAt, FS_Tokenize_eq, defaultPathsep]
  simp only [FS_CanonicalizeName, FS_Tokenize_eq, hs, htilde, makeAbsolute, Bool.not_true,
    Bool.false_eq_true, if_false, finishCanonicalize]

theorem head?_splitAtSep_append_sep (a b : Str) :
    (splitAtSep '/' (a ++ '/' :: b)).head? = (splitAtSep '/' a).head? := by
  rw [splitAtSep_append_sep]
  cases hs : splitAtSep '/' a with
  | nil => exact absurd hs (splitAtSep_ne_nil _ _)
  | cons g t => rfl

theorem FS_CanonicalizeName_prefixed (r p root home cwd : Str)
    (hr : r.head? = some '/')
    (hrt : (splitAtSep '/' r.tail).head? ≠ some ['~']) :
    FS_CanonicalizeName (r ++ '/' :: p) root home cwd
      = finishCanonicalize (splitAtSep '/' r.tail ++ splitAtSep '/' p) := by
  cases r with
  | nil => simp at hr
  | cons x rt =>
    simp only [List.head?_cons, Option.some.injEq] at hr
    subst hr
    have h := FS_CanonicalizeName_absolute ('/' :: rt ++ '/' :: p) root home cwd (by simp)
      (by
        simp only [List.cons_append, List.tail_cons]
        rw [head?_splitAtSep_append_sep]
        exact hrt)
    rw [h]
    simp only [List.cons_append, List.tail_cons, splitAtSep_append_sep]

/-- C18 (amended): for an absolute root `r` whose first component is not
`"~"`, and a path `p` that does not start with `'/'` and whose first
component is not `"~"`, canonicalizing `p` under the root `r` is
canonicalizing `r/p`, whatever the working directory is; under the empty
root the same holds with the working directory `r`. -/
theorem FS_CanonicalizeName_relative_to_root
    (r p home cwd root' home' cwd' : Str)
    (hr : r.head? = some '/')
    (hrt : (splitAtSep '/' r.tail).head? ≠ some ['~'])
    (hp : p.head? ≠ some '/')
    (hpt : (splitAtSep '/' p).head? ≠ some ['~']) :
    FS_CanonicalizeName p r home cwd
        = FS_CanonicalizeName (r ++ '/' :: p) root' home' cwd' ∧
    (∀ cwd2 : Str, FS_CanonicalizeName p r home cwd2 = FS_CanonicalizeName p r home cwd) ∧
    FS_CanonicalizeName p [] home r
        = FS_CanonicalizeName (r ++ '/' :: p) root' home' cwd' := by
  have hne : r ≠ [] := by
    intro e; rw [e] at hr; simp at hr
  have hdrop : dropLeading '/' r = r.tail := by simp [dropLeading, hr]
  have hrel : ∀ c : Str, FS_CanonicalizeName p r home c
      = finishCanonicalize (splitAtSep '/' r.tail ++ splitAtSep '/' p) := by
    intro c
    rw [FS_CanonicalizeName_relative p r home c hp hpt]
    simp only [hne, if_false, hdrop]
  refine ⟨?_, fun cwd2 => ?_, ?_⟩
  · rw [hrel, FS_CanonicalizeName_prefixed r p root' home' cwd' hr hrt]
  · rw [hrel, hrel]
  · rw [FS_CanonicalizeName_relative p [] home r hp hpt,
      FS_CanonicalizeName_prefixed r p root' home' cwd' hr hrt]
    simp only [if_true, hdrop]

/-- Witness for C18 (amended): `"x/y"` under the root `"/r"` is `"/r/x/y"`. -/
theorem FS_CanonicalizeName_relative_to_root_witness :
    FS_CanonicalizeName "x/y".toList "/r".toList "/h".toList "/w".toList
        = FS_CanonicalizeName "/r/x/y".toList [] [] [] ∧
    (∀ cwd2 : Str, FS_CanonicalizeName "x/y".toList "/r".toList "/h".toList cwd2
        = FS_CanonicalizeName "x/y".toList "/r".toList "/h".toList "/w".toList) ∧
    FS_CanonicalizeName "x/y".toList [] "/h".toList "/r".toList
        = FS_CanonicalizeName "/r/x/y".toList [] [] [] :=
  FS_CanonicalizeName_relative_to_root "/r".toList "x/y".toList "/h".toList "/w".toList
    [] [] [] (by decide) (by decide) (by decide) (by decide)

/-- C18 (counterexample): under the root `"/~"` and with home directory
`"/h"`, the path `"x"` canonicalizes to `"/~/x"`, while `"/~/x"`
canonicalizes to `"/h/x"`. -/
theorem FS_CanonicalizeName_root_tilde :
    FS_CanonicalizeName "x".toList "/~".toList "/h".toList "/".toList
        = .ok "/~/x".toList ∧
    FS_CanonicalizeName "/~/x".toList "/~".toList "/h".toList "/".toList
        = .ok "/h/x".toList ∧
    FS_CanonicalizeName "x".toList "/~".toList "/h".toList "/".toList
        ≠ FS_CanonicalizeName ("/~".toList ++ '/' :: "x".toList) "/~".toList "/h".toList
            "/".toList :=
  ⟨rfl, rfl, by
    have h1 : FS_CanonicalizeName "x".toList "/~".toList "/h".toList "/".toList
        = .ok "/~/x".toList := rfl
    have h2 : FS_CanonicalizeName ("/~".toList ++ '/' :: "x".toList) "/~".toList
        "/h".toList "/".toList = .ok "/h/x".toList := rfl
    rw [h1, h2]
    intro h
    cases h⟩

/-- Tilde expansion splices the text read through the pointer of
`FS_GetHomedir()`: when that text `h` starts with `'/'` and its first
component is not `"~"`, canonicalizing `"~/rest"` is canonicalizing `h/rest`
and canonicalizing `"~"` is canonicalizing `h`, whatever the root override
and the working directory are.  Whether `h` is the value of `HOME` is not
decided by the source. -/
theorem FS_CanonicalizeName_tilde_splices_read_text
    (h rest root cwd root' home' cwd' : Str)
    (hh : h.head? = some '/')
    (hht : (splitAtSep '/' h.tail).head? ≠ some ['~']) :
    FS_CanonicalizeName ('~' :: '/' :: rest) root h cwd
        = FS_CanonicalizeName (h ++ '/' :: rest) root' home' cwd' ∧
    FS_CanonicalizeName ['~'] root h cwd = FS_CanonicalizeName h root' home' cwd' := by
  have hdrop : dropLeading '/' h = h.tail := by simp [dropLeading, hh]
  constructor
  · have hs : splitAtSep '/' (dropLeading '/' ('~' :: '/' :: rest))
        = ['~'] :: splitAtSep '/' rest := by
      have hd : dropLeading '/' ('~' :: '/' :: rest) = ['~'] ++ '/' :: rest := by
        simp [dropLeading]
      rw [hd, splitAtSep_append_sep]
      rfl
    rw [FS_CanonicalizeName_of_tilde _ root h cwd _ hs,
      FS_CanonicalizeName_prefixed h rest root' home' cwd' hh hht, hdrop]
  · have hs : splitAtSep '/' (dropLeading '/' ['~']) = ['~'] :: [] := by decide
    rw [FS_CanonicalizeName_of_tilde _ root h cwd _ hs,
      FS_CanonicalizeName_absolute h root' home' cwd' hh hht, hdrop]
    simp

/-- C19 (failing input): with `HOME` set to `"/home/widelands-user"` the
pointer returned by `FS_GetHomedir` designates its destroyed local; the
result for `"~/x"` is fixed by the text `d` read back through that pointer
and not by `HOME`, and when the dead storage reads as the empty string the
result is `"/x"`, while `"/home/widelands-user/x"` canonicalizes to itself. -/
theorem FS_CanonicalizeName_tilde_reads_destroyed_local :
    FS_GetHomedir (some "/home/widelands-user".toList)
      = some (HomedirPointer.dangling "/home/widelands-user".toList) ∧
    (∀ root d cwd : Str, FS_CanonicalizeName "~/x".toList root d cwd
      = finishCanonicalize (splitAtSep '/' (dropLeading '/' d) ++ ["x".toList])) ∧
    (∀ root cwd : Str, FS_CanonicalizeName "~/x".toList root [] cwd = .ok "/x".toList) ∧
    (∀ root home cwd : Str,
      FS_CanonicalizeName "/home/widelands-user/x".toList root home cwd
        = .ok "/home/widelands-user/x".toList) := by
  refine ⟨rfl, fun root d cwd => ?_, fun _ _ => rfl, fun _ _ _ => rfl⟩
  exact FS_CanonicalizeName_of_tilde _ root d cwd ["x".toList] (by decide)

/-! ## Strip after append -/

/-- C21: for a name `s` without a `'.'` after its last separator, an
extension `"." ++ e` where `e` has no `'.'`, `'/'` or `'\\'`, and a buffer
with `bufsize > strlen(s) + strlen(ext)`, stripping the extension that
`FS_AutoExtension` appended gives `s` back. -/
theorem FS_StripExtension_AutoExtension (s e : Str) (bufsize : Int)
    (hs : '.' ∉ afterLastSep s)
    (he : ∀ c ∈ e, c ≠ '.' ∧ c ≠ '/' ∧ c ≠ '\\')
    (hsize : (s.length : Int) + (('.' :: e).length : Int) < bufsize) :
    FS_StripExtension (FS_AutoExtension s bufsize ('.' :: e)) = s := by
  have hscan : scanDot s 0 none = none := (scanDot_eq_none_iff s).mpr hs
  have happ : FS_AutoExtension s bufsize ('.' :: e) = s ++ '.' :: e := by
    simp only [FS_AutoExtension, hscan]
    rw [if_pos hsize]
  rw [happ]
  exact FS_StripExtension_append_dot s e
    (fun c hc hsep => hsep.elim (he c hc).2.1 (he c hc).2.2)
    (fun hmem => (he '.' hmem).1 rfl)

/-- Witness for C21: `"a/b"` gets `".cfg"` appended in a buffer of 64 bytes,
and stripping gives `"a/b"` again. -/
theorem FS_StripExtension_AutoExtension_witness :
    FS_AutoExtension "a/b".toList 64 ('.' :: "cfg".toList) = "a/b.cfg".toList ∧
      FS_StripExtension (FS_AutoExtension "a/b".toList 64 ('.' :: "cfg".toList))
        = "a/b".toList :=
  ⟨by decide, FS_StripExtension_AutoExtension "a/b".toList "cfg".toList 64 (by decide)
    (by decide) (by decide)⟩

/-! ## The option loop of `main` -/

theorem firstIndex_eq_some_iff (c : Char) (l : Str) (k : Nat) :
    firstIndex c l = some k ↔ ∃ a b, l = a ++ c :: b ∧ c ∉ a ∧ a.length = k := by
  induction l generalizing k with
  | nil => simp [firstIndex]
  | cons x xs ih =>
    by_cases hx : x = c
    · subst hx
      simp only [firstIndex, if_true, Option.some.injEq]
      constructor
      · intro h
        exact ⟨[], xs, rfl, by simp, by simpa using h⟩
      · rintro ⟨a, b, hab, hna, hlen⟩
        cases a with
        | nil => simpa using hlen
        | cons y a2 =>
          exfalso
          simp only [List.cons_append, List.cons.injEq] at hab
          exact hna (by simp [hab.1])
    · simp only [firstIndex, hx, if_false, Option.map_eq_some']
      constructor
      · rintro ⟨j, hj, rfl⟩
        obtain ⟨a, b, hab, hna, hlen⟩ := (ih j).mp hj
        refine ⟨x :: a, b, by simp [hab], ?_, by simp [hlen]⟩
        simp only [List.mem_cons, not_or]
        exact ⟨fun e => hx e.symm, hna⟩
      · rintro ⟨a, b, hab, hna, hlen⟩
        cases a with
        | nil =>
          exfalso
          simp only [List.nil_append, List.cons.injEq] at hab
          exact hx hab.1
        | cons y a2 =>
          simp only [List.cons_append, List.cons.injEq] at hab
          simp only [List.mem_cons, not_or] at hna
          simp only [List.length_cons] at hlen
          exact ⟨a2.length, (ih a2.length).mpr ⟨a2, b, hab.2, hna.2, rfl⟩, hlen⟩

theorem optionSetsDedicated_iff (opt : Str) :
    optionSetsDedicated opt = true ↔ "--dedicated=".toList <+: opt := by
  have hD : ('=' : Char) ∉ "--dedicated".toList := by decide
  have hDlen : "--dedicated".toList.length = 11 := by decide
  have hDD : "--dedicated=".toList = "--dedicated".toList ++ ['='] := by decide
  constructor
  · intro h
    unfold optionSetsDedicated at h
    split at h
    · cases h
    · split at h
      · cases h
      · rename_i pos hfind
        simp only [find, List.drop_zero, Option.map_eq_some', Nat.zero_add] at hfind
        obtain ⟨k, hk, rfl⟩ := hfind
        obtain ⟨a, b, hab, hna, hlen⟩ := (firstIndex_eq_some_iff '=' opt k).mp hk
        have herase : eraseRange opt k (opt.length - k) = a := by
          have hkle : k ≤ opt.length := by rw [hab]; simp; omega
          have hdrop : opt.drop (k + (opt.length - k)) = [] := by
            apply List.drop_eq_nil_of_le; omega
          rw [eraseRange, hdrop, List.append_nil, hab, ← hlen]
          simp
        simp only [herase] at h
        split at h
        · rename_i ha
          rw [hDD, ← ha, hab]
          exact ⟨b, by simp⟩
        · cases h
  · rintro ⟨rest, hrest⟩
    have hopt : opt = "--dedicated".toList ++ '=' :: rest := by
      rw [← hrest, hDD]; simp
    have hlen : ¬ opt.length < 11 := by
      rw [hopt]; simp
    have hfirst : firstIndex '=' opt = some 11 :=
      (firstIndex_eq_some_iff '=' opt 11).mpr ⟨_, rest, hopt, hD, hDlen⟩
    have hfind : find opt '=' 0 = some 11 := by simp [find, hfirst]
    have herase : eraseRange opt 11 (opt.length - 11) = "--dedicated".toList := by
      have hdrop : opt.drop (11 + (opt.length - 11)) = [] := by
        apply List.drop_eq_nil_of_le; omega
      rw [eraseRange, hdrop, List.append_nil, hopt]
      rfl
    simp only [optionSetsDedicated, hlen, if_false, hfind, herase, if_true]

theorem optionLoop_eq (args : List Str) (dedicated : Bool) :
    optionLoop args dedicated = (dedicated || args.any optionSetsDedicated) := by
  induction args generalizing dedicated with
  | nil => simp [optionLoop]
  | cons opt rest ih =>
    cases dedicated with
    | true => simp [optionLoop]
    | false =>
      cases h : optionSetsDedicated opt with
      | true => simp [optionLoop, h, ih]
      | false => simp [optionLoop, h, ih]

/-- C22: the flag `dedicated` computed by the option loop of `main` is true
exactly when some argument `argv[i]` with `i ≥ 1` begins with
`"--dedicated="`. -/
theorem dedicatedFlag_iff (argv : List Str) :
    dedicatedFlag argv = true ↔
      ∃ i arg, 1 ≤ i ∧ argv[i]? = some arg ∧ "--dedicated=".toList <+: arg := by
  simp only [dedicatedFlag, optionLoop_eq, Bool.false_or, List.any_eq_true]
  constructor
  · rintro ⟨arg, hmem, hset⟩
    obtain ⟨j, hj⟩ := List.mem_iff_getElem?.mp hmem
    rw [List.getElem?_drop] at hj
    exact ⟨1 + j, arg, by omega, hj, (optionSetsDedicated_iff arg).mp hset⟩
  · rintro ⟨i, arg, hi, hget, hpre⟩
    refine ⟨arg, ?_, (optionSetsDedicated_iff arg).mpr hpre⟩
    apply List.mem_iff_getElem?.mpr
    refine ⟨i - 1, ?_⟩
    rw [List.getElem?_drop]
    have : 1 + (i - 1) = i := by omega
    rw [this]
    exact hget

/-! ## The move-view menu -/

theorem update_eq (w h x y : Int) :
    Event_Move_View_Option_Menu.update ⟨w, h⟩ ⟨x, y⟩
      = ⟨if w ≤ toUint16 x then toSint16 (w - 1) else x,
          if h ≤ toUint16 y then toSint16 (h - 1) else y⟩ := by
  by_cases h1 : w ≤ toUint16 x <;> by_cases h2 : h ≤ toUint16 y <;>
    simp [Event_Move_View_Option_Menu.update, h1, h2]

theorem update_raise_x (w h x y k : Int) (hw : 1 ≤ w) (hh : 1 ≤ h)
    (hwmax : w + 99 ≤ 32767) (hhmax : h + 99 ≤ 32767) (hx0 : 0 ≤ x) (hx : x < w)
    (hy0 : 0 ≤ y) (hy : y < h) (hk0 : 0 ≤ k) (hk : k ≤ 100) :
    Event_Move_View_Option_Menu.update ⟨w, h⟩ ⟨toSint16 (x + k), y⟩
      = ⟨min (x + k) (w - 1), y⟩ := by
  rw [update_eq]
  simp only [toSint16, toUint16, Coords.mk.injEq, min_def]
  split_ifs <;> exact ⟨by omega, by omega⟩

theorem update_lower_x (w h x y k : Int) (hw : 1 ≤ w) (hh : 1 ≤ h)
    (hwmax : w + 99 ≤ 32767) (hhmax : h + 99 ≤ 32767) (hx0 : 0 ≤ x) (hx : x < w)
    (hy0 : 0 ≤ y) (hy : y < h) (hk0 : 0 ≤ k) :
    Event_Move_View_Option_Menu.update ⟨w, h⟩ ⟨toSint16 (x - min x k), y⟩
      = ⟨max (x - k) 0, y⟩ := by
  rw [update_eq]
  simp only [toSint16, toUint16, Coords.mk.injEq, min_def, max_def]
  split_ifs <;> exact ⟨by omega, by omega⟩

theorem update_raise_y (w h x y k : Int) (hw : 1 ≤ w) (hh : 1 ≤ h)
    (hwmax : w + 99 ≤ 32767) (hhmax : h + 99 ≤ 32767) (hx0 : 0 ≤ x) (hx : x < w)
    (hy0 : 0 ≤ y) (hy : y < h) (hk0 : 0 ≤ k) (hk : k ≤ 100) :
    Event_Move_View_Option_Menu.update ⟨w, h⟩ ⟨x, toSint16 (y + k)⟩
      = ⟨x, min (y + k) (h - 1)⟩ := by
  rw [update_eq]
  simp only [toSint16, toUint16, Coords.mk.injEq, min_def]
  split_ifs <;> exact ⟨by omega, by omega⟩

theorem update_lower_y (w h x y k : Int) (hw : 1 ≤ w) (hh : 1 ≤ h)
    (hwmax : w + 99 ≤ 32767) (hhmax : h + 99 ≤ 32767) (hx0 : 0 ≤ x) (hx : x < w)
    (hy0 : 0 ≤ y) (hy : y < h) (hk0 : 0 ≤ k) :
    Event_Move_View_Option_Menu.update ⟨w, h⟩ ⟨x, toSint16 (y - min y k)⟩
      = ⟨x, max (y - k) 0⟩ := by
  rw [update_eq]
  simp only [toSint16, toUint16, Coords.mk.injEq, min_def, max_def]
  split_ifs <;> exact ⟨by omega, by omega⟩

theorem update_inside (w h x y : Int) (hwmax : w + 99 ≤ 32767) (hhmax : h + 99 ≤ 32767)
    (hx0 : 0 ≤ x) (hx : x < w) (hy0 : 0 ≤ y) (hy : y < h) :
    Event_Move_View_Option_Menu.update ⟨w, h⟩ ⟨x, y⟩ = ⟨x, y⟩ := by
  rw [update_eq]
  simp only [toSint16, toUint16, Coords.mk.injEq]
  split_ifs <;> exact ⟨by omega, by omega⟩

/-- C23: for a map of width and height at least 1 and at most 32668, and a
location inside the map, `clicked(i)` leaves the location inside the map:
the buttons 4, 6, 8 (10, 12, 14) lower `x` (`y`) by 100, 10, 1 down to at
least 0, the buttons 3, 5, 7 (9, 11, 13) raise it by 100, 10, 1 up to at
most `w - 1` (`h - 1`), and the other coordinate, and for any other button
both, stay as they are. -/
theorem clicked_stays_in_map (extent : Extent) (loc : Coords) (i : Int)
    (hw : 1 ≤ extent.w) (hh : 1 ≤ extent.h)
    (hwmax : extent.w + 99 ≤ 32767) (hhmax : extent.h + 99 ≤ 32767)
    (hx0 : 0 ≤ loc.x) (hx : loc.x < extent.w)
    (hy0 : 0 ≤ loc.y) (hy : loc.y < extent.h) :
    (0 ≤ (Event_Move_View_Option_Menu.clicked extent i loc).x ∧
      (Event_Move_View_Option_Menu.clicked extent i loc).x < extent.w ∧
      0 ≤ (Event_Move_View_Option_Menu.clicked extent i loc).y ∧
      (Event_Move_View_Option_Menu.clicked extent i loc).y < extent.h) ∧
    Event_Move_View_Option_Menu.clicked extent i loc =
      (if i = 3 then ⟨min (loc.x + 100) (extent.w - 1), loc.y⟩
       else if i = 4 then ⟨max (loc.x - 100) 0, loc.y⟩
       else if i = 5 then ⟨min (loc.x + 10) (extent.w - 1), loc.y⟩
       else if i = 6 then ⟨max (loc.x - 10) 0, loc.y⟩
       else if i = 7 then ⟨min (loc.x + 1) (extent.w - 1), loc.y⟩
       else if i = 8 then ⟨max (loc.x - 1) 0, loc.y⟩
       else if i = 9 then ⟨loc.x, min (loc.y + 100) (extent.h - 1)⟩
       else if i = 10 then ⟨loc.x, max (loc.y - 100) 0⟩
       else if i = 11 then ⟨loc.x, min (loc.y + 10) (extent.h - 1)⟩
       else if i = 12 then ⟨loc.x, max (loc.y - 10) 0⟩
       else if i = 13 then ⟨loc.x, min (loc.y + 1) (extent.h - 1)⟩
       else if i = 14 then ⟨loc.x, max (loc.y - 1) 0⟩
       else loc) := by
  obtain ⟨x, y⟩ := loc
  obtain ⟨w, h⟩ := extent
  simp only at hw hh hwmax hhmax hx0 hx hy0 hy
  have hcases : i = 3 ∨ i = 4 ∨ i = 5 ∨ i = 6 ∨ i = 7 ∨ i = 8 ∨ i = 9 ∨ i = 10 ∨ i = 11 ∨
      i = 12 ∨ i = 13 ∨ i = 14 ∨ (i < 3 ∨ 14 < i) := by omega
  rcases hcases with rfl | rfl | rfl | rfl | rfl | rfl | rfl | rfl | rfl | rfl | rfl | rfl |
    hout
  · have e : Event_Move_View_Option_Menu.clicked ⟨w, h⟩ 3 ⟨x, y⟩ = ⟨min (x + 100) (w - 1), y⟩ :=
      update_raise_x w h x y 100 hw hh hwmax hhmax hx0 hx hy0 hy (by omega) (by omega)
    refine ⟨?_, e⟩
    rw [e]
    simp only [min_def]
    split_ifs <;> exact ⟨by omega, by omega, by omega, by omega⟩
  · have e : Event_Move_View_Option_Menu.clicked ⟨w, h⟩ 4 ⟨x, y⟩ = ⟨max (x - 100) 0, y⟩ :=
      update_lower_x w h x y 100 hw hh hwmax hhmax hx0 hx hy0 hy (by omega)
    refine ⟨?_, e⟩
    rw [e]
    simp only [max_def]
    split_ifs <;> exact ⟨by omega, by omega, by omega, by omega⟩
  · have e : Event_Move_View_Option_Menu.clicked ⟨w, h⟩ 5 ⟨x, y⟩ = ⟨min (x + 10) (w - 1), y⟩ :=
      update_raise_x w h x y 10 hw hh hwmax hhmax hx0 hx hy0 hy (by omega) (by omega)
    refine ⟨?_, e⟩
    rw [e]
    simp only [min_def]
    split_ifs <;> exact ⟨by omega, by omega, by omega, by omega⟩
  · have e : Event_Move_View_Option_Menu.clicked ⟨w, h⟩ 6 ⟨x, y⟩ = ⟨max (x - 10) 0, y⟩ :=
      update_lower_x w h x y 10 hw hh hwmax hhmax hx0 hx hy0 hy (by omega)
    refine ⟨?_, e⟩
    rw [e]
    simp only [max_def]
    split_ifs <;> exact ⟨by omega, by omega, by omega, by omega⟩
  · have e : Event_Move_View_Option_Menu.clicked ⟨w, h⟩ 7 ⟨x, y⟩ = ⟨min (x + 1) (w - 1), y⟩ :=
      update_raise_x w h x y 1 hw hh hwmax hhmax hx0 hx hy0 hy (by omega) (by omega)
    refine ⟨?_, e⟩
    rw [e]
    simp only [min_def]
    split_ifs <;> exact ⟨by omega, by omega, by omega, by omega⟩
  · have e : Event_Move_View_Option_Menu.clicked ⟨w, h⟩ 8 ⟨x, y⟩ = ⟨max (x - 1) 0, y⟩ :=
      update_lower_x w h x y 1 hw hh hwmax hhmax hx0 hx hy0 hy (by omega)
    refine ⟨?_, e⟩
    rw [e]
    simp only [max_def]
    split_ifs <;> exact ⟨by omega, by omega, by omega, by omega⟩
  · have e : Event_Move_View_Option_Menu.clicked ⟨w, h⟩ 9 ⟨x, y⟩ = ⟨x, min (y + 100) (h - 1)⟩ :=
      update_raise_y w h x y 100 hw hh hwmax hhmax hx0 hx hy0 hy (by omega) (by omega)
    refine ⟨?_, e⟩
    rw [e]
    simp only [min_def]
    split_ifs <;> exact ⟨by omega, by omega, by omega, by omega⟩
  · have e : Event_Move_View_Option_Menu.clicked ⟨w, h⟩ 10 ⟨x, y⟩ = ⟨x, max (y - 100) 0⟩ :=
      update_lower_y w h x y 100 hw hh hwmax hhmax hx0 hx hy0 hy (by omega)
    refine ⟨?_, e⟩
    rw [e]
    simp only [max_def]
    split_ifs <;> exact ⟨by omega, by omega, by omega, by omega⟩
  · have e : Event_Move_View_Option_Menu.clicked ⟨w, h⟩ 11 ⟨x, y⟩ = ⟨x, min (y + 10) (h - 1)⟩ :=
      update_raise_y w h x y 10 hw hh hwmax hhmax hx0 hx hy0 hy (by omega) (by omega)
    refine ⟨?_, e⟩
    rw [e]
    simp only [min_def]
    split_ifs <;> exact ⟨by omega, by omega, by omega, by omega⟩
  · have e : Event_Move_View_Option_Menu.clicked ⟨w, h⟩ 12 ⟨x, y⟩ = ⟨x, max (y - 10) 0⟩ :=
      update_lower_y w h x y 10 hw hh hwmax hhmax hx0 hx hy0 hy (by omega)
    refine ⟨?_, e⟩
    rw [e]
    simp only [max_def]
    split_ifs <;> exact ⟨by omega, by omega, by omega, by omega⟩
  · have e : Event_Move_View_Option_Menu.clicked ⟨w, h⟩ 13 ⟨x, y⟩ = ⟨x, min (y + 1) (h - 1)⟩ :=
      update_raise_y w h x y 1 hw hh hwmax hhmax hx0 hx hy0 hy (by omega) (by omega)
    refine ⟨?_, e⟩
    rw [e]
    simp only [min_def]
    split_ifs <;> exact ⟨by omega, by omega, by omega, by omega⟩
  · have e : Event_Move_View_Option_Menu.clicked ⟨w, h⟩ 14 ⟨x, y⟩ = ⟨x, max (y - 1) 0⟩ :=
      update_lower_y w h x y 1 hw hh hwmax hhmax hx0 hx hy0 hy (by omega)
    refine ⟨?_, e⟩
    rw [e]
    simp only [max_def]
    split_ifs <;> exact ⟨by omega, by omega, by omega, by omega⟩
  · have h3 : i ≠ 3 := by omega
    have h4 : i ≠ 4 := by omega
    have h5 : i ≠ 5 := by omega
    have h6 : i ≠ 6 := by omega
    have h7 : i ≠ 7 := by omega
    have h8 : i ≠ 8 := by omega
    have h9 : i ≠ 9 := by omega
    have h10 : i ≠ 10 := by omega
    have h11 : i ≠ 11 := by omega
    have h12 : i ≠ 12 := by omega
    have h13 : i ≠ 13 := by omega
    have h14 : i ≠ 14 := by omega
    have e : Event_Move_View_Option_Menu.clicked ⟨w, h⟩ i ⟨x, y⟩ = ⟨x, y⟩ := by
      simp only [Event_Move_View_Option_Menu.clicked,
        Event_Move_View_Option_Menu.clickedSwitch, h3, h4, h5, h6, h7, h8, h9, h10, h11,
        h12, h13, h14, if_false]
      exact update_inside w h x y hwmax hhmax hx0 hx hy0 hy
    simp only [h3, h4, h5, h6, h7, h8, h9, h10, h11, h12, h13, h14, if_false]
    refine ⟨?_, e⟩
    rw [e]
    exact ⟨hx0, hx, hy0, hy⟩

/-- Witness for C23: on a 64 by 64 map the button 3 moves `x` from 10 to 63. -/
theorem clicked_stays_in_map_witness :
    Event_Move_View_Option_Menu.clicked ⟨64, 64⟩ 3 ⟨10, 20⟩ = ⟨63, 20⟩ :=
  (clicked_stays_in_map ⟨64, 64⟩ ⟨10, 20⟩ 3 (by decide) (by decide) (by decide) (by decide)
    (by decide) (by decide) (by decide) (by decide)).2

end Widelands
